import Mathlib

/- Verification development for the sjson library (src/sjson.hpp).

   The embedding is a faithful shallow model of the C++ source:

   * `JSONToken`, tokens as (kind, literal text) pairs over `List Char`
     (C++ `std::string` text is modelled as `List Char`; byte-wise
     `std::string` comparison agrees with codepoint comparison on the
     UTF-8 strings involved).
   * The scanner (`JSONScanner::scan` and its helpers) is modelled by
     `scan_string`, `scan_number_integer`, `scanRawAux` / `scanRaw`
     (one line), `scan_lines` (whole document).  The C++ scan loop is a
     `for` over character indices; `scanRawAux` carries the initial
     line length as a structurally decreasing bound, which is never
     exhausted because every step consumes at least one character.
   * Console diagnostics (`fmt::println` error/warning messages) are
     modelled by an explicit `List Diag` result component: the C++
     functions do not report errors to their callers in any other way.
   * The parser (`JSONParser`) is modelled by `parse`, `parse_array`,
     `parse_dict` over a token list, with a structurally decreasing
     fuel argument.  Every `parse` step consumes at least one token and
     every loop iteration of `parse_array` / `parse_dict` consumes at
     least one token, so fuel `2 * tokens.length + 2` (used by the
     entry point `parseTop`) can never run out; `none` is reserved for
     an uncaught C++ exception (`std::stoi` / `std::stof` throwing),
     which terminates the program.
   * C++ `float` and its conversions `std::stof` / `std::to_string`
     are floating point and are kept abstract: the whole development is
     parametrised by a payload type `F` with `stof : List Char → Option F`
     (`none` = the conversion throws) and `fmt : F → List Char`
     (`std::to_string(float)`).  Concrete computations instantiate
     `F := Unit`.
   * `JSONObject::to_string` is `to_string`; `JSON::write_to_file`
     writes `to_string root 2` (`saveText`).
   * The mutable accessor (`JSON::operator[]`, `JSON::operator=`) works
     on reference-counted shared nodes; it is modelled by an explicit
     store (`Store` = list of `NodeVal`, addresses are indices,
     allocation appends).  A `JSON` handle is an address. -/

namespace Sjson

/-- Token kinds, mirroring `enum class JSONToken` in sjson.hpp. -/
inductive JSONToken where
  | NULL_
  | BOOL
  | INTEGER
  | NUMBER
  | STRING
  | LEFT_SQUARE_BRACKET
  | RIGHT_SQUARE_BRACKET
  | LEFT_CURLY_BRACKET
  | RIGHT_CURLY_BRACKET
  | COMMA
  | COLON
deriving DecidableEq, Repr

/-- A scanner token: kind plus literal text (`std::pair<JSONToken, std::string>`). -/
abbrev Tok := JSONToken × List Char

/-- Console diagnostics printed with `fmt::println` by the scanner, the
parser and the accessor.  They are the only error reporting in the
source; none of them reaches the caller as a value. -/
inductive Diag where
  | scanBadNull
  | scanBadBool
  | scanBadString
  | scanBadNumber
  | scanUnexpectedChar (c : Char)
  | parseEndOfTokens
  | parseUnexpectedToken
  | parseExpectedComma
  | parseExpectedColon
  | parseExpectedStringKey
deriving DecidableEq, Repr

/-- `std::isspace` on the characters that can occur in a scanned line. -/
def isSpace (c : Char) : Bool :=
  c = ' ' || c = '\t' || c = '\n' || c = Char.ofNat 11 || c = Char.ofNat 12 || c = '\r'

/-- `std::isdigit`. -/
def isDigit (c : Char) : Bool :=
  '0' ≤ c && c ≤ '9'

/-- `std::string(n, ' ')`. -/
def spaces (n : Nat) : List Char :=
  List.replicate n ' '

/-- Lexicographic `std::string::operator<` (byte-wise; codepoint-wise here). -/
def strLt : List Char → List Char → Bool
  | [], [] => false
  | [], _ :: _ => true
  | _ :: _, [] => false
  | a :: as, b :: bs => if a < b then true else if b < a then false else strLt as bs

/-- Ordered insert-or-assign, modelling `std::map::operator[]` followed by
assignment (`m[key] = value`), and `std::map::insert` on an absent key.
`std::map` keeps its entries sorted by key; duplicates overwrite. -/
def insertSorted {β : Type} (k : List Char) (v : β) : List (List Char × β) → List (List Char × β)
  | [] => [(k, v)]
  | (k', v') :: rest =>
    if strLt k k' then (k, v) :: (k', v') :: rest
    else if k = k' then (k, v) :: rest
    else (k', v') :: insertSorted k v rest

/-- `std::map::find` / `std::map::at` on the assoc-list model. -/
def assocFind {β : Type} : List (List Char × β) → List Char → Option β
  | [], _ => none
  | (k', v) :: rest, k => if k = k' then some v else assocFind rest k

/-- The value attached to the last occurrence of key `k` in a pair list
(later entries win). -/
def lastVal {β : Type} : List (List Char × β) → List Char → Option β
  | [], _ => none
  | (k', v) :: ps, k =>
    match lastVal ps k with
    | some w => some w
    | none => if k = k' then some v else none

/- ------------------------------------------------------------------ -/
/- Scanner                                                            -/
/- ------------------------------------------------------------------ -/

/-- Truncation of a line at its first `//`, modelling
`line = line.substr(0, line.find("//"))` in `JSONScanner::scan`.
The cut is purely textual: it also fires inside string literals. -/
def stripComment : List Char → List Char
  | [] => []
  | [c] => [c]
  | c :: d :: r => if c = '/' && d = '/' then [] else c :: stripComment (d :: r)

/-- Split text at newline characters (the segments `std::getline` sees). -/
def splitLines : List Char → List (List Char)
  | [] => [[]]
  | '\n' :: r => [] :: splitLines r
  | c :: r =>
    match splitLines r with
    | [] => [[c]]
    | l :: ls => (c :: l) :: ls

/-- The successive lines produced by the `std::getline` loop: a final empty
segment after a trailing newline (or for empty input) yields no line. -/
def getLines (s : List Char) : List (List Char) :=
  let ls := splitLines s
  if ls.getLast? = some [] then ls.dropLast else ls

/-- `JSONScanner::scan_string`, from just after the opening quote: returns the
text up to (excluding) the closing quote plus the rest of the line, or `none`
when the line ends before a closing quote. -/
def scan_string : List Char → Option (List Char × List Char)
  | [] => none
  | c :: r =>
    if c = '"' then some ([], r)
    else
      match scan_string r with
      | none => none
      | some (m, rest) => some (c :: m, rest)

/-- The character loop inside `JSONScanner::scan_number_integer`.  `acc` is
the reversed literal consumed so far, `dotSeen` / `eSeen` model `dot_pos` /
`e_pos`, `prev` is the previously consumed character (the loop is never at
the start position here).  The result pairs an optional (literal, sawDotOrE)
with the rest of the line as the enclosing scan loop continues it: on a
well-formed break the breaking character is skipped by the loop's `i++`
(the comma-eating behaviour), and on a malformed literal the offending
character is likewise skipped. -/
def scanNumGo : List Char → List Char → Bool → Bool → Char → Option (List Char × Bool) × List Char
  | [], acc, dotSeen, eSeen, _ => (some (acc.reverse, dotSeen || eSeen), [])
  | c :: r, acc, dotSeen, eSeen, prev =>
    if isDigit c then scanNumGo r (c :: acc) dotSeen eSeen c
    else if c = '.' then
      if dotSeen || eSeen then (none, r) else scanNumGo r (c :: acc) true eSeen c
    else if c = 'e' || c = 'E' then
      if eSeen then (none, r) else scanNumGo r (c :: acc) dotSeen true c
    else if c = '+' || c = '-' then
      if prev = 'e' || prev = 'E' then scanNumGo r (c :: acc) dotSeen eSeen c
      else (none, r)
    else (some (acc.reverse, dotSeen || eSeen), r)

/-- Final classification step of `scan_number_integer`: `NUMBER` when a
dot or exponent marker was seen, else `INTEGER`. -/
def numFinish : Option (List Char × Bool) × List Char → Option (JSONToken × List Char) × List Char
  | (some (lit, sawDotE), rest) =>
    (some ((if sawDotE then JSONToken.NUMBER else JSONToken.INTEGER), lit), rest)
  | (none, rest) => (none, rest)

/-- `JSONScanner::scan_number_integer`: classify the literal as `NUMBER`
when a dot or exponent marker was seen, else `INTEGER`; `none` models the
malformed-number error (which yields a `(NULL_, "")` placeholder token in
the scan loop).  The second component is the rest of the line as the scan
loop continues it (see `scanNumGo`). -/
def scan_number_integer : List Char → Option (JSONToken × List Char) × List Char
  | [] => (some (.INTEGER, []), [])
  | c :: r =>
    if isDigit c then numFinish (scanNumGo r [c] false false c)
    else if c = '.' then numFinish (scanNumGo r [c] true false c)
    else if c = 'e' || c = 'E' then numFinish (scanNumGo r [c] false true c)
    else if c = '+' || c = '-' then numFinish (scanNumGo r [c] false false c)
    else (some (.INTEGER, []), r)

/-- Prepend a token to a scan result. -/
def pushTok (t : Tok) : List Tok × List Diag × Bool → List Tok × List Diag × Bool
  | (ts, ds, ab) => (t :: ts, ds, ab)

/-- Prepend a diagnostic to a scan result. -/
def pushDiag (d : Diag) : List Tok × List Diag × Bool → List Tok × List Diag × Bool
  | (ts, ds, ab) => (ts, d :: ds, ab)

/-- The per-line character loop of `JSONScanner::scan` after comment
stripping.  The result is (tokens, diagnostics, aborted): `aborted = true`
models the `return` on an unexpected character, which stops scanning the
whole document.  The `bound` argument is initialised to the line length and
decreases by one per consumed character; since every step consumes at least
one character it never reaches `0` before the line is exhausted. -/
def scanRawAux : Nat → List Char → List Tok × List Diag × Bool
  | 0, _ => ([], [], false)
  | _ + 1, [] => ([], [], false)
  | b + 1, c :: r =>
    if isSpace c then scanRawAux b r
    else if c = '{' then pushTok (.LEFT_CURLY_BRACKET, ['{']) (scanRawAux b r)
    else if c = '}' then pushTok (.RIGHT_CURLY_BRACKET, ['}']) (scanRawAux b r)
    else if c = '[' then pushTok (.LEFT_SQUARE_BRACKET, ['[']) (scanRawAux b r)
    else if c = ']' then pushTok (.RIGHT_SQUARE_BRACKET, [']']) (scanRawAux b r)
    else if c = ',' then pushTok (.COMMA, [',']) (scanRawAux b r)
    else if c = ':' then pushTok (.COLON, [':']) (scanRawAux b r)
    else if c = '"' then
      match scan_string r with
      | some (m, rest) => pushTok (.STRING, '"' :: (m ++ ['"'])) (scanRawAux b rest)
      | none => pushTok (.NULL_, []) (pushDiag .scanBadString ([], [], false))
    else if c = 't' || c = 'f' then
      if List.isPrefixOf ("true".toList) (c :: r) then
        pushTok (.BOOL, ("true".toList)) (scanRawAux b (r.drop 3))
      else if List.isPrefixOf ("false".toList) (c :: r) then
        pushTok (.BOOL, ("false".toList)) (scanRawAux b (r.drop 4))
      else pushTok (.NULL_, []) (pushDiag .scanBadBool (scanRawAux b r))
    else if c = 'n' then
      if List.isPrefixOf ("null".toList) (c :: r) then
        pushTok (.NULL_, ("null".toList)) (scanRawAux b (r.drop 3))
      else pushTok (.NULL_, []) (pushDiag .scanBadNull (scanRawAux b r))
    else if isDigit c || c = '+' || c = '-' then
      match scan_number_integer (c :: r) with
      | (some (tk, lit), rest) => pushTok (tk, lit) (scanRawAux b rest)
      | (none, rest) => pushTok (.NULL_, []) (pushDiag .scanBadNumber (scanRawAux b rest))
    else ([], [.scanUnexpectedChar c], true)

/-- Scan one comment-stripped line. -/
def scanRaw (l : List Char) : List Tok × List Diag × Bool :=
  scanRawAux l.length l

/-- Scan one raw line: comment stripping, then the character loop. -/
def scanLine (l : List Char) : List Tok × List Diag × Bool :=
  scanRaw (stripComment l)

/-- The `std::getline` loop of `JSONScanner::scan` over a list of lines;
an abort (unexpected character) drops all remaining lines but keeps the
tokens already collected. -/
def scan_lines : List (List Char) → List Tok × List Diag × Bool
  | [] => ([], [], false)
  | l :: ls =>
    match scanLine l with
    | (ts, ds, true) => (ts, ds, true)
    | (ts, ds, false) =>
      match scan_lines ls with
      | (ts2, ds2, ab) => (ts ++ ts2, ds ++ ds2, ab)

/-- `JSONScanner::scan` on a whole document text. -/
def scanText (text : List Char) : List Tok × List Diag × Bool :=
  scan_lines (getLines text)

/- ------------------------------------------------------------------ -/
/- Value model                                                        -/
/- ------------------------------------------------------------------ -/

mutual
/-- The tagged value tree (`JSONObject` with its `JSONType` tag and
`std::variant` payload).  `F` is the abstract C++ `float`.  Array and
Dict children are modelled structurally here; sharing/aliasing of nodes
is modelled separately by `Store` for the accessor claims. -/
inductive Value (F : Type) where
  | null : Value F
  | bool (b : Bool) : Value F
  | int (n : Int) : Value F
  | num (x : F) : Value F
  | str (s : List Char) : Value F
  | arr (elems : VList F) : Value F
  | dict (entries : PList F) : Value F

/-- Children of an Array node (`std::vector<std::shared_ptr<JSONObject>>`). -/
inductive VList (F : Type) where
  | nil : VList F
  | cons (v : Value F) (rest : VList F) : VList F

/-- Entries of a Dict node (`std::map<std::string, std::shared_ptr<JSONObject>>`,
kept in sorted key order by construction). -/
inductive PList (F : Type) where
  | nil : PList F
  | cons (k : List Char) (v : Value F) (rest : PList F) : PList F
end

variable {F : Type}

/-- Convert an ordinary list of values into the array-children list. -/
def listToVL : List (Value F) → VList F
  | [] => .nil
  | v :: r => .cons v (listToVL r)

/-- Convert an assoc list into the dict-entries list. -/
def plOfList : List (List Char × Value F) → PList F
  | [] => .nil
  | (k, v) :: r => .cons k v (plOfList r)

/-- `std::to_string(int)`: plain decimal with a leading minus sign. -/
def intLit (n : Int) : List Char :=
  if n < 0 then '-' :: Nat.toDigits 10 (-n).toNat else Nat.toDigits 10 n.toNat

/-- The closing-bracket indentation in `JSONObject::to_string`:
`if (depth > 2) out += std::string(depth - 2, ' ')`. -/
def closeIndent (depth : Nat) : List Char :=
  if depth > 2 then spaces (depth - 2) else []

/-- The comma separator after a non-last array child
(`if (i < array->size() - 1) out += ","`). -/
def vlSep : VList F → List Char
  | .nil => []
  | .cons _ _ => [',']

/-- The comma separator after a non-last object entry. -/
def plSep : PList F → List Char
  | .nil => []
  | .cons _ _ _ => [',']

mutual
/-- `JSONObject::to_string(depth)`.  Leaves return their literal text
directly; containers open with the bracket and a newline, render each child
prefixed with `depth` spaces at depth `depth + 2`, separate children by a
comma (none after the last) followed by a newline, and close with
`closeIndent depth` and the bracket. -/
def to_string (fmt : F → List Char) : Value F → Nat → List Char
  | .null, _ => ("null".toList)
  | .bool b, _ => if b then ("true".toList) else ("false".toList)
  | .int n, _ => intLit n
  | .num x, _ => fmt x
  | .str s, _ => '"' :: (s ++ ['"'])
  | .arr l, depth => '[' :: '\n' :: (arrItems fmt l depth ++ (closeIndent depth ++ [']']))
  | .dict m, depth => '{' :: '\n' :: (dictItems fmt m depth ++ (closeIndent depth ++ ['}']))

/-- The element loop of the `ARRAY` case of `to_string`. -/
def arrItems (fmt : F → List Char) : VList F → Nat → List Char
  | .nil, _ => []
  | .cons v rest, depth =>
    spaces depth ++ (to_string fmt v (depth + 2) ++
      (vlSep rest ++ ('\n' :: arrItems fmt rest depth)))

/-- The entry loop of the `DICT` case of `to_string`. -/
def dictItems (fmt : F → List Char) : PList F → Nat → List Char
  | .nil, _ => []
  | .cons k v rest, depth =>
    spaces depth ++ ('"' :: (k ++ ('"' :: ':' :: ' ' :: to_string fmt v (depth + 2)))) ++
      (plSep rest ++ ('\n' :: dictItems fmt rest depth))
end

/-- The text written by `JSON::write_to_file`: `root->to_string(2)`. -/
def saveText (fmt : F → List Char) (v : Value F) : List Char :=
  to_string fmt v 2

/- ------------------------------------------------------------------ -/
/- Parser                                                             -/
/- ------------------------------------------------------------------ -/

/-- The numeric value of a decimal digit string (most significant first). -/
def digitsVal (ds : List Char) : Nat :=
  ds.foldl (fun a c => 10 * a + (c.toNat - 48)) 0

/-- `std::stoi` on a token text: optional leading whitespace, optional
sign, decimal digits.  `none` models a thrown exception: no digits
(`std::invalid_argument`) or a value that does not fit a 32-bit `int`
(`std::out_of_range`); either is uncaught by the parser and terminates
the program. -/
def stoi (s : List Char) : Option Int :=
  let s1 := s.dropWhile isSpace
  let sgn : Int :=
    match s1 with
    | c :: _ => if c = '-' then -1 else 1
    | [] => 1
  let s2 :=
    match s1 with
    | c :: r => if c = '-' || c = '+' then r else c :: r
    | [] => []
  let ds := s2.takeWhile isDigit
  if ds = [] then none
  else
    let v : Int := sgn * (digitsVal ds : Nat)
    if -(2 ^ 31) ≤ v ∧ v ≤ 2 ^ 31 - 1 then some v else none

mutual
/-- `JSONParser::parse`, with a structurally decreasing fuel argument (see
the header comment; fuel cannot run out at the fuel supplied by
`parseTop`).  The result is `(value, remaining tokens, diagnostics)`;
`none` models an uncaught exception from `std::stoi` / `std::stof`.
Reading past the end of the tokens prints a diagnostic and yields the
`(NULL_, "")` token, hence a Null node. -/
def parse (stof : List Char → Option F) : Nat → List Tok → Option (Value F × List Tok × List Diag)
  | 0, _ => none
  | _ + 1, [] => some (.null, [], [.parseEndOfTokens])
  | f + 1, (tk, lit) :: r =>
    match tk with
    | .NULL_ => some (.null, r, [])
    | .BOOL => some (if lit = ("true".toList) then .bool true else .bool false, r, [])
    | .STRING =>
      match lit with
      | [] => none
      | _ :: cs => some (.str cs.dropLast, r, [])
    | .INTEGER =>
      match stoi lit with
      | none => none
      | some n => some (.int n, r, [])
    | .NUMBER =>
      match stof lit with
      | none => none
      | some x => some (.num x, r, [])
    | .LEFT_SQUARE_BRACKET => parse_array stof f true [] r
    | .LEFT_CURLY_BRACKET => parse_dict stof f true [] r
    | .RIGHT_SQUARE_BRACKET => some (.null, r, [.parseUnexpectedToken])
    | .RIGHT_CURLY_BRACKET => some (.null, r, [.parseUnexpectedToken])
    | .COMMA => some (.null, r, [.parseUnexpectedToken])
    | .COLON => some (.null, r, [.parseUnexpectedToken])

/-- The loop of `JSONParser::parse_array`.  Each iteration peeks for `]`
(success), requires a comma when not the first iteration (a missing comma
prints a diagnostic and returns a fresh Null node), then parses one value
and appends it. -/
def parse_array (stof : List Char → Option F) :
    Nat → Bool → List (Value F) → List Tok → Option (Value F × List Tok × List Diag)
  | 0, _, _, _ => none
  | f + 1, first, acc, toks =>
    match toks with
    | (.RIGHT_SQUARE_BRACKET, _) :: r => some (.arr (listToVL acc), r, [])
    | _ =>
      let d0 : List Diag := if toks.isEmpty then [.parseEndOfTokens] else []
      if first then
        match parse stof f toks with
        | none => none
        | some (v, r1, ds) =>
          match parse_array stof f false (acc ++ [v]) r1 with
          | none => none
          | some (w, r2, ds2) => some (w, r2, d0 ++ (ds ++ ds2))
      else
        match toks with
        | (.COMMA, _) :: r =>
          match parse stof f r with
          | none => none
          | some (v, r1, ds) =>
            match parse_array stof f false (acc ++ [v]) r1 with
            | none => none
            | some (w, r2, ds2) => some (w, r2, ds ++ ds2)
        | [] => some (.null, [], d0 ++ [.parseEndOfTokens, .parseExpectedComma])
        | _ :: r => some (.null, r, [.parseExpectedComma])

/-- The loop of `JSONParser::parse_dict`.  Each iteration peeks for `}`
(success), requires a comma when not the first iteration, parses a value
that must be of String kind as the key, requires a colon, parses the
value, and stores it via `m[key] = value` (overwriting any earlier entry
for the same key). -/
def parse_dict (stof : List Char → Option F) :
    Nat → Bool → List (List Char × Value F) → List Tok → Option (Value F × List Tok × List Diag)
  | 0, _, _, _ => none
  | f + 1, first, m, toks =>
    match toks with
    | (.RIGHT_CURLY_BRACKET, _) :: r => some (.dict (plOfList m), r, [])
    | _ =>
      let d0 : List Diag := if toks.isEmpty then [.parseEndOfTokens] else []
      if first then
        match parse stof f toks with
        | none => none
        | some (kv, r1, ds) =>
          match kv with
          | .str k =>
            match r1 with
            | (.COLON, _) :: r2 =>
              match parse stof f r2 with
              | none => none
              | some (v, r3, ds2) =>
                match parse_dict stof f false (insertSorted k v m) r3 with
                | none => none
                | some (w, r4, ds3) => some (w, r4, d0 ++ (ds ++ (ds2 ++ ds3)))
            | [] => some (.null, [], d0 ++ (ds ++ [.parseEndOfTokens, .parseExpectedColon]))
            | _ :: r2 => some (.null, r2, d0 ++ (ds ++ [.parseExpectedColon]))
          | _ => some (.null, r1, d0 ++ (ds ++ [.parseExpectedStringKey]))
      else
        match toks with
        | (.COMMA, _) :: r =>
          match parse stof f r with
          | none => none
          | some (kv, r1, ds) =>
            match kv with
            | .str k =>
              match r1 with
              | (.COLON, _) :: r2 =>
                match parse stof f r2 with
                | none => none
                | some (v, r3, ds2) =>
                  match parse_dict stof f false (insertSorted k v m) r3 with
                  | none => none
                  | some (w, r4, ds3) => some (w, r4, ds ++ (ds2 ++ ds3))
              | [] => some (.null, [], ds ++ [.parseEndOfTokens, .parseExpectedColon])
              | _ :: r2 => some (.null, r2, ds ++ [.parseExpectedColon])
            | _ => some (.null, r1, ds ++ [.parseExpectedStringKey])
        | [] => some (.null, [], d0 ++ [.parseEndOfTokens, .parseExpectedComma])
        | _ :: r => some (.null, r, [.parseExpectedComma])
end

/-- Entry point `JSONParser::parse` called from `JSON::read_from_file`.
The fuel `2 * toks.length + 2` strictly exceeds any possible recursion
depth (each `parse` step consumes a token before recursing, and each loop
iteration consumes at least one token), so the `none`-on-zero-fuel branch
is unreachable here. -/
def parseTop (stof : List Char → Option F) (toks : List Tok) :
    Option (Value F × List Tok × List Diag) :=
  parse stof (2 * toks.length + 2) toks

/-- `JSON::read_from_file`, applied to the file's text: scan all lines,
then parse the collected tokens (trailing tokens are not examined). -/
def read_from_file (stof : List Char → Option F) (text : List Char) :
    Option (Value F × List Tok × List Diag) :=
  parseTop stof (scanText text).1

/- ------------------------------------------------------------------ -/
/- Store model for the mutable accessor                               -/
/- ------------------------------------------------------------------ -/

/-- A tree node as stored behind a `std::shared_ptr<JSONObject>`: the tag
plus payload, with children referred to by store addresses so that
aliasing and in-place mutation are observable. -/
inductive NodeVal (F : Type) where
  | null : NodeVal F
  | bool (b : Bool) : NodeVal F
  | int (n : Int) : NodeVal F
  | num (x : F) : NodeVal F
  | str (s : List Char) : NodeVal F
  | arr (elems : List Nat) : NodeVal F
  | dict (entries : List (List Char × Nat)) : NodeVal F
deriving Repr

/-- The heap of live nodes: addresses are list indices, allocation
(`std::make_shared<JSONObject>`) appends. -/
abbrev Store (F : Type) := List (NodeVal F)

/-- `JSON::operator=` via `JSONObject::set`: overwrite the tag and payload
of the node the handle aliases, in place. -/
def assign (s : Store F) (a : Nat) (v : NodeVal F) : Store F :=
  s.set a v

/-- `JSON::operator[](std::string_view)`: on a Dict node, look the key up;
if absent, insert a fresh Null node under the key (auto-vivification) and
return its address.  On a non-Dict node, print an error and return a
default-constructed `JSON`, whose root is a fresh empty Dict node. -/
def keyIndex (s : Store F) (a : Nat) (k : List Char) : Store F × Nat :=
  match s[a]? with
  | some (.dict m) =>
    match assocFind m k with
    | some c => (s, c)
    | none => ((s.set a (.dict (insertSorted k s.length m))) ++ [.null], s.length)
  | _ => (s ++ [.dict []], s.length)

/-- `JSON::operator[](size_t)`: on an Array node, append fresh Null nodes
while the index is out of range (ending with exactly `i + 1` elements),
then return the address at slot `i`.  On a non-Array node, print an error
and return a default-constructed `JSON` (fresh empty Dict node). -/
def idxIndex (s : Store F) (a : Nat) (i : Nat) : Store F × Nat :=
  match s[a]? with
  | some (.arr l) =>
    if i < l.length then (s, l.getD i 0)
    else
      let cnt := i + 1 - l.length
      let grown := l ++ (List.range cnt).map (fun j => s.length + j)
      ((s.set a (.arr grown)) ++ List.replicate cnt .null, grown.getD i 0)
  | _ => (s ++ [.dict []], s.length)

/- ------------------------------------------------------------------ -/
/- Concrete instantiation of the abstract float payload               -/
/- ------------------------------------------------------------------ -/

/- ------------------------------------------------------------------ -/
/- Sortedness of dict entries                                         -/
/- ------------------------------------------------------------------ -/

/-- The keys of a dict-entry list, in stored (iteration) order. -/
def plKeys : PList F → List (List Char)
  | .nil => []
  | .cons k _ r => k :: plKeys r

/-- `headLt a l`: `a` is strictly below the first element of `l` (if any). -/
def headLt (a : List Char) : List (List Char) → Bool
  | [] => true
  | b :: _ => strLt a b

/-- Strictly ascending chain, the order invariant `std::map` maintains. -/
def chainLt : List (List Char) → Bool
  | [] => true
  | a :: l => headLt a l && chainLt l

mutual
/-- Every Object anywhere in the value has its entries in strictly
ascending key order (the `std::map` invariant). -/
def sortedVal : Value F → Bool
  | .null => true
  | .bool _ => true
  | .int _ => true
  | .num _ => true
  | .str _ => true
  | .arr l => sortedVL l
  | .dict m => chainLt (plKeys m) && sortedPL m

/-- `sortedVal` on all elements of an array-children list. -/
def sortedVL : VList F → Bool
  | .nil => true
  | .cons v r => sortedVal v && sortedVL r

/-- `sortedVal` on all values of a dict-entries list. -/
def sortedPL : PList F → Bool
  | .nil => true
  | .cons _ v r => sortedVal v && sortedPL r
end

/- ------------------------------------------------------------------ -/
/- Spec-side description of the serialized layout                     -/
/- ------------------------------------------------------------------ -/

mutual
/-- Rendering as the spec describes it, by nesting level: a leaf is its
literal text; a container at nesting level `lvl` opens with its bracket on
the current line, renders each child on its own line indented exactly
`2 * (lvl + 1)` columns (two columns deeper than the current nesting
level), separates children by commas with none after the last, and places
the closing bracket at the parent's indentation `2 * lvl` (never below
column zero); the root container (level 0) opens at column zero. -/
def specRender (fmt : F → List Char) : Value F → Nat → List Char
  | .null, _ => ("null".toList)
  | .bool b, _ => if b then ("true".toList) else ("false".toList)
  | .int n, _ => intLit n
  | .num x, _ => fmt x
  | .str s, _ => '"' :: (s ++ ['"'])
  | .arr l, lvl => '[' :: '\n' :: (specArrItems fmt l lvl ++ (spaces (2 * lvl) ++ [']']))
  | .dict m, lvl => '{' :: '\n' :: (specDictItems fmt m lvl ++ (spaces (2 * lvl) ++ ['}']))

/-- Array children, one line each at indentation `2 * (lvl + 1)`. -/
def specArrItems (fmt : F → List Char) : VList F → Nat → List Char
  | .nil, _ => []
  | .cons v rest, lvl =>
    spaces (2 * (lvl + 1)) ++ (specRender fmt v (lvl + 1) ++
      (vlSep rest ++ ('\n' :: specArrItems fmt rest lvl)))

/-- Object entries, one line each at indentation `2 * (lvl + 1)`. -/
def specDictItems (fmt : F → List Char) : PList F → Nat → List Char
  | .nil, _ => []
  | .cons k v rest, lvl =>
    spaces (2 * (lvl + 1)) ++ ('"' :: (k ++ ('"' :: ':' :: ' ' :: specRender fmt v (lvl + 1)))) ++
      (plSep rest ++ ('\n' :: specDictItems fmt rest lvl))
end

/- ------------------------------------------------------------------ -/
/- Token sequences for literals "as written"                          -/
/- ------------------------------------------------------------------ -/

/-- The token sequence of the remainder of an array literal of string
elements, in written order: `, "s"` for each further element, then `]`. -/
def strTailToks : List (List Char) → List Tok
  | [] => [(.RIGHT_SQUARE_BRACKET, [']'])]
  | s :: ss => (.COMMA, [',']) :: (.STRING, '"' :: (s ++ ['"'])) :: strTailToks ss

/-- The token sequence of an array literal `["s0", "s1", ...]` with its
elements in written order. -/
def strArrToks : List (List Char) → List Tok
  | [] => (.LEFT_SQUARE_BRACKET, ['[']) :: strTailToks []
  | s :: ss => (.LEFT_SQUARE_BRACKET, ['[']) :: (.STRING, '"' :: (s ++ ['"'])) :: strTailToks ss

/-- The token sequence of the remainder of an object literal with string
values, in written order: `, "k": "v"` for each further pair, then `}`. -/
def strDictTailToks : List (List Char × List Char) → List Tok
  | [] => [(.RIGHT_CURLY_BRACKET, ['}'])]
  | (k, v) :: ps =>
    (.COMMA, [',']) :: (.STRING, '"' :: (k ++ ['"'])) :: (.COLON, [':'])
      :: (.STRING, '"' :: (v ++ ['"'])) :: strDictTailToks ps

/-- The token sequence of an object literal with its key/value pairs
(string values) in written order. -/
def strDictToks : List (List Char × List Char) → List Tok
  | [] => (.LEFT_CURLY_BRACKET, ['{']) :: strDictTailToks []
  | (k, v) :: ps =>
    (.LEFT_CURLY_BRACKET, ['{']) :: (.STRING, '"' :: (k ++ ['"'])) :: (.COLON, [':'])
      :: (.STRING, '"' :: (v ++ ['"'])) :: strDictTailToks ps

/- ------------------------------------------------------------------ -/
/- Concrete instantiation of the abstract float payload               -/
/- ------------------------------------------------------------------ -/

/-- Trivial instantiation of the abstract `std::stof` for concrete
computations that involve no `NUMBER` token. -/
def stofU : List Char → Option Unit := fun _ => some ()

/-- Trivial instantiation of the abstract `std::to_string(float)` for
concrete computations that involve no `num` payload. -/
def fmtU : Unit → List Char := fun _ => ("0.000000".toList)

/- ------------------------------------------------------------------ -/
/- Concrete values used by the claim theorems                         -/
/- ------------------------------------------------------------------ -/

/-- No `//` occurs anywhere in the line. -/
def noDoubleSlash : List Char → Bool
  | [] => true
  | [_] => true
  | c :: d :: r => !(c = '/' && d = '/') && noDoubleSlash (d :: r)

/-- The array value `[1, 2]`: two Integer leaves, no quote characters,
no Number payloads at all (so the claim's hypotheses hold). -/
def v12 : Value Unit := .arr (listToVL [.int 1, .int 2])

/-- C3 initial store for the concrete scenario: address 0 is the root
Object `{"b": ↦1}`, address 1 is the Object `{"c": ↦2}`, address 2 is
`true`.  `doc` is the handle for address 0, `doc["b"]["c"]` the handle
for address 2. -/
def c3Store : Store Unit :=
  [.dict [(("b".toList), 1)], .dict [(("c".toList), 2)], .bool true]

/-- The token sequence of the object literal `{"b": "x", "a": "y"}`,
whose keys appear in the input in the order `b`, `a`. -/
def dtoks7 : List Tok :=
  strDictToks [(("b".toList), ("x".toList)), (("a".toList), ("y".toList))]

/- ------------------------------------------------------------------ -/
/- Comment stripping                                                  -/
/- ------------------------------------------------------------------ -/

theorem stripComment_head (d : Char) (r : List Char) :
    stripComment (d :: r) = [] ∨ ∃ t, stripComment (d :: r) = d :: t := by
  match r with
  | [] => exact Or.inr ⟨[], rfl⟩
  | e :: r =>
    by_cases h : (d = '/' && e = '/') = true
    · exact Or.inl (by simp [stripComment, h])
    · exact Or.inr ⟨stripComment (e :: r), by simp [stripComment, h]⟩

theorem noDS_stripComment : ∀ l : List Char, noDoubleSlash (stripComment l) = true
  | [] => rfl
  | [_] => rfl
  | c :: d :: r => by
    by_cases h : (c = '/' && d = '/') = true
    · simp [stripComment, h, noDoubleSlash]
    · have ih := noDS_stripComment (d :: r)
      rcases stripComment_head d r with h0 | ⟨t, ht⟩
      · simp [stripComment, h, h0, noDoubleSlash]
      · rw [ht] at ih
        simp [stripComment, h, ht, noDoubleSlash, ih]

theorem stripComment_of_noDS : ∀ l : List Char, noDoubleSlash l = true → stripComment l = l
  | [], _ => rfl
  | [_], _ => rfl
  | c :: d :: r, h => by
    rw [noDoubleSlash] at h
    simp only [Bool.and_eq_true, Bool.not_eq_true'] at h
    rw [stripComment]
    simp only [h.1, Bool.false_eq_true, if_false, List.cons.injEq, true_and]
    exact stripComment_of_noDS (d :: r) h.2

/-- Removing the first `//`-comment is idempotent. -/
theorem stripComment_idem (l : List Char) :
    stripComment (stripComment l) = stripComment l :=
  stripComment_of_noDS _ (noDS_stripComment l)

/- ------------------------------------------------------------------ -/
/- Claim C5                                                           -/
/- ------------------------------------------------------------------ -/

/-- C5 counterexample: on the line `"a//b"` the `//` inside the quoted
string DOES truncate the line: the scanner produces a single
`(NULL_, "")` placeholder token and no STRING token at all, refuting the
claim that the string token produced contains the `//` and the
characters after it. -/
theorem c5_counterexample :
    (scanLine ("\"a//b\"".toList)).1 = [(JSONToken.NULL_, [])]
    ∧ ∀ t ∈ (scanLine ("\"a//b\"".toList)).1, t.1 ≠ JSONToken.STRING :=
  ⟨rfl, by decide⟩

/-- C5 (amended): for every input line the tokenizer first strips
everything from the first `//` on, so a line tokenizes exactly as its
comment-stripped prefix does (e.g. `a: 1 // note` scans as `a: 1 `); the
cut is purely textual and also fires inside quoted string literals: on
`"a//b"` the line is truncated to `"a`, producing an unterminated-string
scan error and a `(NULL_, "")` placeholder token instead of a string
token containing the `//`. -/
theorem c5_comment_stripping_amended :
    (∀ l : List Char, scanLine l = scanLine (stripComment l))
    ∧ scanLine ("a: 1 // note".toList) = scanLine ("a: 1 ".toList)
    ∧ scanLine ("\"a//b\"".toList) = ([(JSONToken.NULL_, [])], [Diag.scanBadString], false) := by
  refine ⟨fun l => ?_, rfl, rfl⟩
  show scanRaw (stripComment l) = scanRaw (stripComment (stripComment l))
  rw [stripComment_idem]

/- ------------------------------------------------------------------ -/
/- Claim C1                                                           -/
/- ------------------------------------------------------------------ -/

/-- C1 fails on the code: for `v = [1, 2]` (which has no string payloads
and no numeric float payloads at all), `serialize v = "[\n1,\n2\n]"`, but
re-scanning loses the comma after `1` — `scan_number_integer` stops with
the index on the comma and the scan loop's `i++` skips it — so the token
stream is `[ 1 2 ]` without a comma, `parse_array` reports a missing
comma and substitutes a Null node, and serializing again yields `"null"`,
not the original text.  Hence
`serialize(parse(serialize(v))) ≠ serialize(v)`. -/
theorem c1_roundtrip_failure :
    (read_from_file stofU (to_string fmtU v12 0)).map (fun p => to_string fmtU p.1 0)
      = some ("null".toList)
    ∧ ("null".toList) ≠ to_string fmtU v12 0
    ∧ (scanText (to_string fmtU v12 0)).1
        = [(JSONToken.LEFT_SQUARE_BRACKET, ['[']), (JSONToken.INTEGER, ['1']),
           (JSONToken.INTEGER, ['2']), (JSONToken.RIGHT_SQUARE_BRACKET, [']'])] := by
  refine ⟨rfl, by decide, rfl⟩

/- ------------------------------------------------------------------ -/
/- Claim C2 counterexample                                            -/
/- ------------------------------------------------------------------ -/

/-- C2 counterexample: (1) scanning the unterminated string `"abc`
prints a diagnostic but hands its caller the placeholder token
`(NULL_, "")` and scanning continues; (2) the parser turns that
placeholder into a structurally valid Null node with no error at all
(indistinguishable from parsing a genuine `null`); (3) the integer
literal `9999999999` does not fit `int` and `std::stoi` throws an
uncaught exception — the program crashes (`none`) instead of reporting a
distinct conversion-error kind to the caller. -/
theorem c2_counterexample :
    scanLine ("\"abc".toList) = ([(JSONToken.NULL_, [])], [Diag.scanBadString], false)
    ∧ parseTop stofU [(JSONToken.NULL_, [])] = some (Value.null, [], [])
    ∧ parseTop stofU [(JSONToken.NULL_, ("null".toList))] = some (Value.null, [], [])
    ∧ parseTop stofU [(JSONToken.INTEGER, ("9999999999".toList))] = none :=
  ⟨rfl, rfl, rfl, rfl⟩

/- ------------------------------------------------------------------ -/
/- Claim C6 counterexample                                            -/
/- ------------------------------------------------------------------ -/

/-- C6 counterexample: the claim says `"1e"` is rejected as malformed,
but `scan_number_integer` accepts it and classifies it as a `NUMBER`
token (the scanner never requires digits after an exponent marker). -/
theorem c6_counterexample :
    (scan_number_integer ("1e".toList)).1 = some (JSONToken.NUMBER, ("1e".toList)) := rfl

/- ------------------------------------------------------------------ -/
/- assoc-list lemmas                                                  -/
/- ------------------------------------------------------------------ -/

theorem assocFind_insertSorted {β : Type} (k k' : List Char) (v : β) :
    ∀ m : List (List Char × β),
      assocFind (insertSorted k v m) k' = if k' = k then some v else assocFind m k'
  | [] => by
    by_cases h : k' = k <;> simp [insertSorted, assocFind, h]
  | (k0, v0) :: rest => by
    rw [insertSorted]
    by_cases hlt : strLt k k0 = true
    · by_cases h : k' = k <;> simp [hlt, assocFind, h]
    · by_cases heq : k = k0
      · subst heq
        by_cases h : k' = k <;> simp [hlt, assocFind, h]
      · have ih := assocFind_insertSorted k k' v rest
        by_cases h : k' = k
        · subst h
          simp [hlt, heq, assocFind, ih]
        · by_cases h0 : k' = k0 <;> simp [hlt, heq, assocFind, h0, ih, h, Ne.symm heq]

theorem assocFind_insertSorted_self {β : Type} (k : List Char) (v : β)
    (m : List (List Char × β)) :
    assocFind (insertSorted k v m) k = some v := by
  simp [assocFind_insertSorted]

/- ------------------------------------------------------------------ -/
/- Claim C3                                                           -/
/- ------------------------------------------------------------------ -/

/-- C3: assignment through a handle (`JSON::operator=`, i.e.
`JSONObject::set`) overwrites the tag and payload of the aliased node in
place: reading the same address afterwards — through this or any other
handle aliasing it — yields the new value, and every other node is
untouched.  In particular, on a document `{"b": {"c": true}}`,
after `doc["b"]["c"] = false` a subsequent read of `doc["b"]["c"]`
navigates to the same address 2 and yields `false`. -/
theorem c3_assignment_aliasing :
    (∀ (F : Type) (s : Store F) (a : Nat) (v : NodeVal F), a < s.length →
       (assign s a v)[a]? = some v
       ∧ ∀ b : Nat, b ≠ a → (assign s a v)[b]? = s[b]?)
    ∧ (keyIndex c3Store 0 ("b".toList) = (c3Store, 1)
       ∧ keyIndex c3Store 1 ("c".toList) = (c3Store, 2)
       ∧ (assign c3Store 2 (.bool false))[2]? = some (.bool false)
       ∧ keyIndex (assign c3Store 2 (.bool false)) 0 ("b".toList)
           = (assign c3Store 2 (.bool false), 1)
       ∧ keyIndex (assign c3Store 2 (.bool false)) 1 ("c".toList)
           = (assign c3Store 2 (.bool false), 2)) := by
  refine ⟨fun F s a v h => ⟨?_, fun b hb => ?_⟩, rfl, rfl, rfl, rfl, rfl⟩
  · simpa [assign] using List.getElem?_set_eq_of_lt v h
  · simpa [assign] using List.getElem?_set_ne (Ne.symm hb) ..

/-- C3 witness: the general part of `c3_assignment_aliasing` applied to a
concrete one-node store. -/
theorem c3_assignment_aliasing_witness :
    (assign ([NodeVal.null] : Store Unit) 0 (.bool true))[0]? = some (NodeVal.bool true)
    ∧ (assign ([NodeVal.null] : Store Unit) 0 (.bool true))[1]?
        = ([NodeVal.null] : Store Unit)[1]? :=
  ⟨(c3_assignment_aliasing.1 Unit [.null] 0 (.bool true) (by decide)).1,
   (c3_assignment_aliasing.1 Unit [.null] 0 (.bool true) (by decide)).2 1 (by decide)⟩

/- ------------------------------------------------------------------ -/
/- Claim C4                                                           -/
/- ------------------------------------------------------------------ -/

/-- C4: auto-vivification.  (a) Key lookup on an Object node with an
absent key inserts a fresh Null child under that key — the entry persists
in the object inside the store after the call — and returns a handle
aliasing that new node.  (b) Index lookup `i` on an Array node of length
`n ≤ i` appends Null entries until the array has exactly `i + 1`
elements (the original elements are untouched, every appended slot is a
fresh Null node) and returns the handle stored in slot `i`. -/
theorem c4_autovivification :
    (∀ (F : Type) (s : Store F) (a : Nat) (k : List Char) (m : List (List Char × Nat)),
       s[a]? = some (.dict m) → assocFind m k = none →
       (keyIndex s a k).2 = s.length
       ∧ ((keyIndex s a k).1)[s.length]? = some (.null)
       ∧ ∃ m', ((keyIndex s a k).1)[a]? = some (.dict m')
           ∧ assocFind m' k = some (keyIndex s a k).2)
    ∧ (∀ (F : Type) (s : Store F) (a i : Nat) (l : List Nat),
       s[a]? = some (.arr l) → l.length ≤ i →
       ∃ l', ((idxIndex s a i).1)[a]? = some (.arr l')
         ∧ l'.length = i + 1
         ∧ (∀ j, j < l.length → l'[j]? = l[j]?)
         ∧ (∀ j, l.length ≤ j → j ≤ i →
              ∃ c, l'[j]? = some c ∧ ((idxIndex s a i).1)[c]? = some (.null))
         ∧ (idxIndex s a i).2 = l'.getD i 0) := by
  constructor
  · intro F s a k m h1 h2
    have ha : a < s.length := (List.getElem?_eq_some_iff.mp h1).1
    refine ⟨by simp [keyIndex, h1, h2], ?_, insertSorted k s.length m, ?_, ?_⟩
    · have hlen : (s.set a (NodeVal.dict (insertSorted k s.length m))).length = s.length := by
        simp
      simp only [keyIndex, h1, h2]
      have hc := List.getElem?_concat_length
        (s.set a (NodeVal.dict (insertSorted k s.length m))) NodeVal.null
      rw [hlen] at hc
      exact hc
    · have ha' : a < (s.set a (NodeVal.dict (insertSorted k s.length m))).length := by
        simpa using ha
      simp only [keyIndex, h1, h2]
      rw [List.getElem?_append_left ha']
      exact List.getElem?_set_eq_of_lt _ (by simpa using ha)
    · simp [keyIndex, h1, h2, assocFind_insertSorted_self]
  · intro F s a i l h1 h2
    have ha : a < s.length := (List.getElem?_eq_some_iff.mp h1).1
    have hni : ¬ i < l.length := by omega
    refine ⟨l ++ (List.range (i + 1 - l.length)).map (fun j => s.length + j), ?_, ?_, ?_, ?_, ?_⟩
    · have ha' : a < (s.set a (NodeVal.arr
          (l ++ (List.range (i + 1 - l.length)).map (fun j => s.length + j)))).length := by
        simpa using ha
      simp only [idxIndex, h1, hni, if_false]
      rw [List.getElem?_append_left ha']
      exact List.getElem?_set_eq_of_lt _ (by simpa using ha)
    · simp
      omega
    · intro j hj
      exact List.getElem?_append_left hj
    · intro j hj1 hj2
      refine ⟨s.length + (j - l.length), ?_, ?_⟩
      · rw [List.getElem?_append_right hj1]
        have hc : j - l.length < i + 1 - l.length := by omega
        simp [hc]
      · simp only [idxIndex, h1, hni, if_false]
        have hlen : (s.set a (NodeVal.arr
            (l ++ (List.range (i + 1 - l.length)).map (fun j => s.length + j)))).length
            = s.length := by simp
        rw [List.getElem?_append_right (by rw [hlen]; omega)]
        rw [hlen]
        have he : s.length + (j - l.length) - s.length = j - l.length := by omega
        rw [he]
        have hc : j - l.length < i + 1 - l.length := by omega
        simp [hc]
    · simp [idxIndex, h1, hni]

/-- C4 witness: claim instance — `doc[5]` on the 2-element array at
address 0 grows it to exactly 6 elements, the 4 appended ones Null. -/
theorem c4_autovivification_witness :
    (∃ m', ((keyIndex ([.dict []] : Store Unit) 0 ("missing".toList)).1)[0]?
        = some (.dict m')
        ∧ assocFind m' ("missing".toList)
            = some (keyIndex ([.dict []] : Store Unit) 0 ("missing".toList)).2)
    ∧ ∃ l', ((idxIndex ([.arr [1, 2], .null, .null] : Store Unit) 0 5).1)[0]?
        = some (.arr l') ∧ l'.length = 6 :=
  ⟨(c4_autovivification.1 Unit [.dict []] 0 ("missing".toList) [] rfl rfl).2.2,
   match c4_autovivification.2 Unit [.arr [1, 2], .null, .null] 0 5 [1, 2] rfl (by decide) with
   | ⟨l', hl1, hl2, _⟩ => ⟨l', hl1, hl2⟩⟩

/- ------------------------------------------------------------------ -/
/- Claim C10                                                          -/
/- ------------------------------------------------------------------ -/

/-- C10: key lookup on a non-Object node (and index lookup on a
non-Array node) prints an error and returns a default-constructed `JSON`:
the original node and every node of the original store are left
unchanged, and the returned handle aliases a freshly allocated empty
Object node at a fresh address (beyond the original store), so that
further navigation and assignment through that handle succeed but leave
every original node untouched. -/
theorem c10_noncontainer_indexing :
    (∀ (F : Type) (s : Store F) (a : Nat) (k : List Char),
       (∀ m, s[a]? ≠ some (.dict m)) →
       keyIndex s a k = (s ++ [.dict []], s.length)
       ∧ (∀ b, b < s.length → (s ++ [.dict []])[b]? = s[b]?)
       ∧ (s ++ [.dict []])[s.length]? = some (.dict [])
       ∧ (∀ (v : NodeVal F) b, b < s.length →
            (assign (s ++ [.dict []]) s.length v)[b]? = s[b]?)
       ∧ (∀ (k' : List Char) b, b < s.length →
            ((keyIndex (s ++ [.dict []]) s.length k').1)[b]? = s[b]?))
    ∧ (∀ (F : Type) (s : Store F) (a i : Nat),
       (∀ l, s[a]? ≠ some (.arr l)) →
       idxIndex s a i = (s ++ [.dict []], s.length)
       ∧ (∀ b, b < s.length → (s ++ [.dict []])[b]? = s[b]?)) := by
  have hkeep : ∀ (F : Type) (s : Store F) (b : Nat), b < s.length →
      (s ++ [NodeVal.dict []])[b]? = s[b]? := by
    intro F s b hb
    exact List.getElem?_append_left hb
  constructor
  · intro F s a k h
    have hkey : keyIndex s a k = (s ++ [.dict []], s.length) := by
      rcases hsa : s[a]? with _ | n
      · simp [keyIndex, hsa]
      · cases n with
        | dict m => exact absurd hsa (h m)
        | null => simp [keyIndex, hsa]
        | bool b => simp [keyIndex, hsa]
        | int n => simp [keyIndex, hsa]
        | num x => simp [keyIndex, hsa]
        | str s => simp [keyIndex, hsa]
        | arr l => simp [keyIndex, hsa]
    refine ⟨hkey, hkeep F s, List.getElem?_concat_length .., fun v b hb => ?_, fun k' b hb => ?_⟩
    · show ((s ++ [NodeVal.dict []]).set s.length v)[b]? = s[b]?
      rw [List.getElem?_set_ne (by omega) ..]
      exact hkeep F s b hb
    · have hfresh : (s ++ [NodeVal.dict []])[s.length]? = some (NodeVal.dict []) :=
        List.getElem?_concat_length ..
      simp only [keyIndex, hfresh, assocFind]
      have hb' : b < ((s ++ [NodeVal.dict []]).set s.length
          (NodeVal.dict (insertSorted k' (s ++ [NodeVal.dict []]).length []))).length := by
        simp
        omega
      rw [List.getElem?_append_left hb']
      rw [List.getElem?_set_ne (by omega) ..]
      exact hkeep F s b hb
  · intro F s a i h
    have hidx : idxIndex s a i = (s ++ [.dict []], s.length) := by
      rcases hsa : s[a]? with _ | n
      · simp [idxIndex, hsa]
      · cases n with
        | arr l => exact absurd hsa (h l)
        | null => simp [idxIndex, hsa]
        | bool b => simp [idxIndex, hsa]
        | int n => simp [idxIndex, hsa]
        | num x => simp [idxIndex, hsa]
        | str s => simp [idxIndex, hsa]
        | dict m => simp [idxIndex, hsa]
    exact ⟨hidx, hkeep F s⟩

/-- C10 witness: both parts applied to a store whose node 0 is `true`
(neither an Object nor an Array). -/
theorem c10_noncontainer_indexing_witness :
    keyIndex ([.bool true] : Store Unit) 0 ("k".toList) = ([.bool true, .dict []], 1)
    ∧ idxIndex ([.bool true] : Store Unit) 0 3 = ([.bool true, .dict []], 1) :=
  ⟨(c10_noncontainer_indexing.1 Unit [.bool true] 0 ("k".toList)
      (fun m h => by simp at h)).1,
   (c10_noncontainer_indexing.2 Unit [.bool true] 0 3
      (fun l h => by simp at h)).1⟩

/- ------------------------------------------------------------------ -/
/- Claim C6                                                           -/
/- ------------------------------------------------------------------ -/

theorem isDigit_not_special (c : Char) (h : isDigit c = true) :
    c ≠ '.' ∧ c ≠ 'e' ∧ c ≠ 'E' := by
  refine ⟨?_, ?_, ?_⟩ <;> rintro rfl <;> exact absurd h (by decide)

/-- Invariant of the number-scan loop: provided the `dot_pos` / `e_pos`
flags reflect whether a dot / exponent marker occurs in the consumed
prefix, a successful scan classifies as `NUMBER` exactly when the final
literal contains a dot or an exponent marker. -/
theorem scanNumGo_classify :
    ∀ (rem acc : List Char) (dotSeen eSeen : Bool) (prev : Char)
      (lit : List Char) (isNum : Bool) (rest : List Char),
      scanNumGo rem acc dotSeen eSeen prev = (some (lit, isNum), rest) →
      (dotSeen = true ↔ '.' ∈ acc) →
      (eSeen = true ↔ ('e' ∈ acc ∨ 'E' ∈ acc)) →
      (isNum = true ↔ ('.' ∈ lit ∨ 'e' ∈ lit ∨ 'E' ∈ lit))
  | [], acc, dotSeen, eSeen, prev, lit, isNum, rest => by
    intro h hd he
    rw [scanNumGo] at h
    simp only [Prod.mk.injEq, Option.some.injEq] at h
    obtain ⟨⟨hl, hn⟩, -⟩ := h
    subst hl hn
    simp only [Bool.or_eq_true, List.mem_reverse, hd, he]
  | c :: r, acc, dotSeen, eSeen, prev, lit, isNum, rest => by
    intro h hd he
    rw [scanNumGo] at h
    by_cases h1 : isDigit c = true
    · rw [if_pos h1] at h
      obtain ⟨hc1, hc2, hc3⟩ := isDigit_not_special c h1
      exact scanNumGo_classify r (c :: acc) dotSeen eSeen c lit isNum rest h
        (by simp [List.mem_cons, hd, Ne.symm hc1])
        (by simp [List.mem_cons, he, Ne.symm hc2, Ne.symm hc3])
    · rw [if_neg h1] at h
      by_cases h2 : c = '.'
      · subst h2
        rw [if_pos rfl] at h
        by_cases h3 : (dotSeen || eSeen) = true
        · rw [if_pos h3] at h
          exact absurd h (by simp)
        · rw [if_neg h3] at h
          exact scanNumGo_classify r ('.' :: acc) true eSeen '.' lit isNum rest h
            (by simp)
            (by simp [List.mem_cons, he, show ('e' : Char) ≠ '.' from by decide,
                      show ('E' : Char) ≠ '.' from by decide])
      · rw [if_neg h2] at h
        by_cases h4 : (c = 'e' || c = 'E') = true
        · rw [if_pos h4] at h
          by_cases h5 : eSeen = true
          · rw [if_pos h5] at h
            exact absurd h (by simp)
          · rw [if_neg h5] at h
            refine scanNumGo_classify r (c :: acc) dotSeen true c lit isNum rest h
              (by simp [List.mem_cons, hd, Ne.symm h2]) ?_
            rcases Bool.or_eq_true .. |>.mp h4 with h6 | h6 <;>
              rw [decide_eq_true_eq] at h6 <;> simp [List.mem_cons, h6]
        · rw [if_neg h4] at h
          by_cases h7 : (c = '+' || c = '-') = true
          · rw [if_pos h7] at h
            by_cases h8 : (prev = 'e' || prev = 'E') = true
            · rw [if_pos h8] at h
              have hce : c ≠ 'e' ∧ c ≠ 'E' ∧ c ≠ '.' := by
                rcases Bool.or_eq_true .. |>.mp h7 with h9 | h9 <;>
                  rw [decide_eq_true_eq] at h9 <;> subst h9 <;>
                    exact ⟨by decide, by decide, by decide⟩
              exact scanNumGo_classify r (c :: acc) dotSeen eSeen c lit isNum rest h
                (by simp [List.mem_cons, hd, Ne.symm hce.2.2])
                (by simp [List.mem_cons, he, Ne.symm hce.1, Ne.symm hce.2.1])
            · rw [if_neg h8] at h
              exact absurd h (by simp)
          · rw [if_neg h7] at h
            simp only [Prod.mk.injEq, Option.some.injEq] at h
            obtain ⟨⟨hl, hn⟩, -⟩ := h
            subst hl hn
            simp only [Bool.or_eq_true, List.mem_reverse, hd, he]

/-- Classification after `numFinish`, given the loop invariant. -/
theorem numFinish_classify (r : List Char) (c : Char) (d0 e0 : Bool)
    (tk : JSONToken) (lit rest : List Char)
    (h : numFinish (scanNumGo r [c] d0 e0 c) = (some (tk, lit), rest))
    (hd : d0 = true ↔ '.' ∈ [c]) (he : e0 = true ↔ ('e' ∈ [c] ∨ 'E' ∈ [c])) :
    tk = JSONToken.INTEGER ↔ ('.' ∉ lit ∧ 'e' ∉ lit ∧ 'E' ∉ lit) := by
  rcases hgo : scanNumGo r [c] d0 e0 c with ⟨opt, rest0⟩
  rcases opt with - | ⟨lit0, isN⟩
  · rw [hgo] at h
    exact absurd h (by simp [numFinish])
  · rw [hgo] at h
    rw [numFinish] at h
    simp only [Prod.mk.injEq, Option.some.injEq] at h
    obtain ⟨⟨ht, hl⟩, -⟩ := h
    have hiff := scanNumGo_classify r [c] d0 e0 c lit0 isN rest0 hgo hd he
    subst hl
    subst ht
    by_cases hn : isN = true
    · rw [if_pos hn]
      constructor
      · intro hbad
        exact absurd hbad (by simp)
      · intro hmem
        rcases hiff.mp hn with h' | h' | h'
        · exact absurd h' hmem.1
        · exact absurd h' hmem.2.1
        · exact absurd h' hmem.2.2
    · rw [if_neg hn]
      refine ⟨fun _ => ⟨fun hm => hn (hiff.mpr (Or.inl hm)),
                        fun hm => hn (hiff.mpr (Or.inr (Or.inl hm))),
                        fun hm => hn (hiff.mpr (Or.inr (Or.inr hm)))⟩,
              fun _ => rfl⟩

/-- `scan_number_integer` classification, lifted to the entry point. -/
theorem scan_number_integer_classify (s : List Char) (tk : JSONToken)
    (lit rest : List Char) (h : scan_number_integer s = (some (tk, lit), rest)) :
    tk = JSONToken.INTEGER ↔ ('.' ∉ lit ∧ 'e' ∉ lit ∧ 'E' ∉ lit) := by
  match s with
  | [] =>
    rw [scan_number_integer] at h
    simp only [Prod.mk.injEq, Option.some.injEq] at h
    obtain ⟨⟨ht, hl⟩, -⟩ := h
    subst ht hl
    simp
  | c :: r =>
    rw [scan_number_integer] at h
    by_cases h1 : isDigit c = true
    · rw [if_pos h1] at h
      obtain ⟨hc1, hc2, hc3⟩ := isDigit_not_special c h1
      exact numFinish_classify r c false false tk lit rest h
        (by simp [Ne.symm hc1]) (by simp [Ne.symm hc2, Ne.symm hc3])
    · rw [if_neg h1] at h
      by_cases h2 : c = '.'
      · subst h2
        rw [if_pos rfl] at h
        exact numFinish_classify r '.' true false tk lit rest h (by simp) (by simp)
      · rw [if_neg h2] at h
        by_cases h4 : (c = 'e' || c = 'E') = true
        · rw [if_pos h4] at h
          refine numFinish_classify r c false true tk lit rest h (by simp [Ne.symm h2]) ?_
          rcases Bool.or_eq_true .. |>.mp h4 with h6 | h6 <;>
            simp [decide_eq_true_eq] at h6 <;> simp [h6]
        · rw [if_neg h4] at h
          by_cases h7 : (c = '+' || c = '-') = true
          · rw [if_pos h7] at h
            have hce : c ≠ 'e' ∧ c ≠ 'E' ∧ c ≠ '.' := by
              rcases Bool.or_eq_true .. |>.mp h7 with h9 | h9 <;>
                simp [decide_eq_true_eq] at h9 <;> subst h9 <;>
                  exact ⟨by decide, by decide, by decide⟩
            exact numFinish_classify r c false false tk lit rest h
              (by simp [Ne.symm hce.2.2]) (by simp [Ne.symm hce.1, Ne.symm hce.2.1])
          · rw [if_neg h7] at h
            simp only [Prod.mk.injEq, Option.some.injEq] at h
            obtain ⟨⟨ht, hl⟩, -⟩ := h
            subst ht hl
            simp

/-- C6 (amended): the scanner classifies a successfully scanned numeric
literal as Integer exactly when the literal contains no dot and no
exponent marker, and as Number otherwise; `"12"` yields an Integer token,
`"12.0"`, `"1e5"`, `"1.2e-3"` yield Number tokens, and `"1.2.3"` is
rejected as malformed — but `"1e"` is NOT rejected: the scanner does not
require digits after the exponent marker and accepts it as a Number
token. -/
theorem c6_number_classification_amended :
    (scan_number_integer ("12".toList)).1 = some (JSONToken.INTEGER, ("12".toList))
    ∧ (scan_number_integer ("12.0".toList)).1 = some (JSONToken.NUMBER, ("12.0".toList))
    ∧ (scan_number_integer ("1e5".toList)).1 = some (JSONToken.NUMBER, ("1e5".toList))
    ∧ (scan_number_integer ("1.2e-3".toList)).1 = some (JSONToken.NUMBER, ("1.2e-3".toList))
    ∧ (scan_number_integer ("1.2.3".toList)).1 = none
    ∧ (scan_number_integer ("1e".toList)).1 = some (JSONToken.NUMBER, ("1e".toList))
    ∧ ∀ (s : List Char) (tk : JSONToken) (lit rest : List Char),
        scan_number_integer s = (some (tk, lit), rest) →
        (tk = JSONToken.INTEGER ↔ ('.' ∉ lit ∧ 'e' ∉ lit ∧ 'E' ∉ lit)) :=
  ⟨rfl, rfl, rfl, rfl, rfl, rfl, scan_number_integer_classify⟩

/-- C6 witness: the dichotomy applied to the concrete scan of `"12"`. -/
theorem c6_number_classification_amended_witness :
    '.' ∉ ("12".toList) ∧ 'e' ∉ ("12".toList) ∧ 'E' ∉ ("12".toList) :=
  (c6_number_classification_amended.2.2.2.2.2.2
    ("12".toList) JSONToken.INTEGER ("12".toList) [] rfl).mp rfl

/- ------------------------------------------------------------------ -/
/- Claim C2 (amended)                                                 -/
/- ------------------------------------------------------------------ -/

theorem isDigit_not_space (c : Char) (h : isDigit c = true) : isSpace c = false := by
  by_contra hns
  rw [Bool.not_eq_false] at hns
  simp only [isSpace, Bool.or_eq_true, decide_eq_true_eq] at hns
  rcases hns with ((((rfl | rfl) | rfl) | rfl) | rfl) | rfl <;> exact absurd h (by decide)

theorem isDigit_not_sign (c : Char) (h : isDigit c = true) : c ≠ '-' ∧ c ≠ '+' := by
  constructor <;> rintro rfl <;> exact absurd h (by decide)

/-- A line that opens a string literal and never closes it makes
`scan_string` fail. -/
theorem scan_string_none : ∀ cs : List Char, '"' ∉ cs → scan_string cs = none
  | [], _ => rfl
  | c :: r, h => by
    rw [scan_string]
    rw [if_neg (by intro hc; exact h (hc ▸ List.mem_cons_self c r))]
    rw [scan_string_none r (fun hm => h (List.mem_cons_of_mem c hm))]

/-- `std::stoi` on an all-digit literal whose value exceeds `INT_MAX`
throws (`none`). -/
theorem stoi_big (ds : List Char) (h0 : ds ≠ [])
    (h1 : ∀ c ∈ ds, isDigit c = true) (h2 : 2 ^ 31 ≤ digitsVal ds) :
    stoi ds = none := by
  obtain ⟨c, r, rfl⟩ : ∃ c r, ds = c :: r := by
    cases ds with
    | nil => exact absurd rfl h0
    | cons c r => exact ⟨c, r, rfl⟩
  have hc : isDigit c = true := h1 c (List.mem_cons_self c r)
  have hdw : (c :: r).dropWhile isSpace = c :: r := by
    rw [List.dropWhile_cons, isDigit_not_space c hc]
    simp
  have htw : (c :: r).takeWhile isDigit = c :: r := List.takeWhile_eq_self_iff.mpr h1
  obtain ⟨hm, hp⟩ := isDigit_not_sign c hc
  rw [stoi]
  simp only [hdw]
  have hs1 : (if c = '-' then (-1 : Int) else 1) = 1 := if_neg hm
  have hs2 : (if c = '-' || c = '+' then r else c :: r) = c :: r :=
    if_neg (by simp [hm, hp])
  rw [hs1, hs2, htw]
  rw [if_neg (by simp : ¬(c :: r = []))]
  rw [if_neg (by
    intro hand
    have hle := hand.2
    rw [one_mul] at hle
    omega)]

/-- A missing comma between array elements makes `parse_array` print a
diagnostic and return a fresh Null node (consuming the offending token). -/
theorem parse_array_missing_comma {F : Type} (stof : List Char → Option F)
    (f : Nat) (acc : List (Value F)) (tk : JSONToken) (lit : List Char) (r : List Tok)
    (h1 : tk ≠ JSONToken.COMMA) (h2 : tk ≠ JSONToken.RIGHT_SQUARE_BRACKET) :
    parse_array stof (f + 1) false acc ((tk, lit) :: r)
      = some (.null, r, [.parseExpectedComma]) := by
  cases tk <;> first
    | exact absurd rfl h1
    | exact absurd rfl h2
    | simp [parse_array]

/-- C2 (amended): every scan, parse, and access operation returns a value
unconditionally; failures are reported only as console diagnostics, not
as values to the caller, and the operation substitutes a placeholder and
continues: (1) an unterminated string produces the placeholder token
`(NULL_, "")` — the same `NULL_` kind a genuine `null` produces — and the
scan goes on; (2) an integer literal whose value exceeds `INT_MAX` is not
reported as a distinct conversion-error kind: `std::stoi` throws and the
uncaught exception crashes the program; (3) a missing comma between array
elements yields a structurally valid Null node in place of the array. -/
theorem c2_error_propagation_amended :
    (∀ cs : List Char, '"' ∉ cs →
        scanRaw ('"' :: cs) = ([(JSONToken.NULL_, [])], [Diag.scanBadString], false))
    ∧ (∀ ds : List Char, ds ≠ [] → (∀ c ∈ ds, isDigit c = true) →
        2 ^ 31 ≤ digitsVal ds →
        ∀ (F : Type) (stof : List Char → Option F) (r : List Tok),
          parseTop stof ((JSONToken.INTEGER, ds) :: r) = none)
    ∧ (∀ (F : Type) (stof : List Char → Option F) (f : Nat) (acc : List (Value F))
         (tk : JSONToken) (lit : List Char) (r : List Tok),
        tk ≠ JSONToken.COMMA → tk ≠ JSONToken.RIGHT_SQUARE_BRACKET →
        parse_array stof (f + 1) false acc ((tk, lit) :: r)
          = some (.null, r, [.parseExpectedComma])) := by
  refine ⟨fun cs h => ?_, fun ds h0 h1 h2 F stof r => ?_,
          fun F stof f acc tk lit r h1 h2 => parse_array_missing_comma stof f acc tk lit r h1 h2⟩
  · show scanRawAux (cs.length + 1) ('"' :: cs) = _
    rw [scanRawAux]
    rw [if_neg (by decide), if_neg (by decide), if_neg (by decide), if_neg (by decide),
        if_neg (by decide), if_neg (by decide), if_neg (by decide), if_pos (by decide)]
    rw [scan_string_none cs h]
    rfl
  · rw [parseTop]
    have hf : 2 * (((JSONToken.INTEGER, ds) :: r).length) + 2 = (2 * r.length + 3) + 1 := by
      simp [List.length_cons]
      ring
    rw [hf, parse, stoi_big ds h0 h1 h2]

/-- C2 witness: the three amended statements at concrete inputs. -/
theorem c2_error_propagation_amended_witness :
    scanRaw ('"' :: ("ab".toList)) = ([(JSONToken.NULL_, [])], [Diag.scanBadString], false)
    ∧ parseTop stofU [(JSONToken.INTEGER, ("9999999999".toList))] = none
    ∧ parse_array stofU 1 false [] [(JSONToken.COLON, [':'])]
        = some (Value.null, [], [Diag.parseExpectedComma]) :=
  ⟨c2_error_propagation_amended.1 ("ab".toList) (by decide),
   c2_error_propagation_amended.2.1 ("9999999999".toList) (by decide) (by decide) (by decide)
     Unit stofU [],
   c2_error_propagation_amended.2.2 Unit stofU 0 [] JSONToken.COLON [':'] []
     (by decide) (by decide)⟩

/- ------------------------------------------------------------------ -/
/- Claim C9                                                           -/
/- ------------------------------------------------------------------ -/

theorem closeIndent_two_mul (lvl : Nat) : closeIndent (2 * lvl + 2) = spaces (2 * lvl) := by
  rcases Nat.eq_zero_or_pos lvl with rfl | hpos
  · rfl
  · rw [closeIndent, if_pos (by omega)]
    rw [show 2 * lvl + 2 - 2 = 2 * lvl from by omega]

mutual
theorem to_string_eq_specRender {F : Type} (fmt : F → List Char) :
    ∀ (v : Value F) (lvl : Nat), to_string fmt v (2 * lvl + 2) = specRender fmt v lvl
  | .null, _ => rfl
  | .bool _, _ => rfl
  | .int _, _ => rfl
  | .num _, _ => rfl
  | .str _, _ => rfl
  | .arr l, lvl => by
    rw [to_string, specRender, closeIndent_two_mul, arrItems_eq_specArrItems fmt l lvl]
  | .dict m, lvl => by
    rw [to_string, specRender, closeIndent_two_mul, dictItems_eq_specDictItems fmt m lvl]

theorem arrItems_eq_specArrItems {F : Type} (fmt : F → List Char) :
    ∀ (l : VList F) (lvl : Nat), arrItems fmt l (2 * lvl + 2) = specArrItems fmt l lvl
  | .nil, _ => rfl
  | .cons v rest, lvl => by
    rw [arrItems, specArrItems, arrItems_eq_specArrItems fmt rest lvl]
    rw [show (2 * lvl + 2) + 2 = 2 * (lvl + 1) + 2 from by ring]
    rw [to_string_eq_specRender fmt v (lvl + 1)]
    rw [show spaces (2 * lvl + 2) = spaces (2 * (lvl + 1)) from by rw [show 2 * lvl + 2 = 2 * (lvl + 1) from by ring]]

theorem dictItems_eq_specDictItems {F : Type} (fmt : F → List Char) :
    ∀ (m : PList F) (lvl : Nat), dictItems fmt m (2 * lvl + 2) = specDictItems fmt m lvl
  | .nil, _ => rfl
  | .cons k v rest, lvl => by
    rw [dictItems, specDictItems, dictItems_eq_specDictItems fmt rest lvl]
    rw [show (2 * lvl + 2) + 2 = 2 * (lvl + 1) + 2 from by ring]
    rw [to_string_eq_specRender fmt v (lvl + 1)]
    rw [show spaces (2 * lvl + 2) = spaces (2 * (lvl + 1)) from by rw [show 2 * lvl + 2 = 2 * (lvl + 1) from by ring]]
end

/-- C9: the text written by Save (`JSON::write_to_file`, which serializes
with the fixed initial indent 2) coincides, for every value, with the
spec-side layout `specRender` at nesting level 0: containers open their
bracket on the current line (the root at column zero), each child sits on
its own line indented exactly two columns deeper than its nesting level,
children are separated by commas with none after the last, and the
closing bracket sits at the parent's indentation, which is never below
column zero. -/
theorem c9_serialization_layout {F : Type} (fmt : F → List Char) (v : Value F) :
    saveText fmt v = specRender fmt v 0 :=
  to_string_eq_specRender fmt v 0

/- ------------------------------------------------------------------ -/
/- Order lemmas for insertSorted                                      -/
/- ------------------------------------------------------------------ -/

theorem strLt_total : ∀ (a b : List Char), strLt a b = false → a ≠ b → strLt b a = true
  | [], [], h1, h2 => absurd rfl h2
  | [], _ :: _, h1, _ => by simp [strLt] at h1
  | _ :: _, [], _, _ => by simp [strLt]
  | c :: as, d :: bs, h1, h2 => by
    rw [strLt] at h1
    rcases lt_trichotomy c d with hcd | hcd | hcd
    · rw [if_pos hcd] at h1
      exact absurd h1 (by simp)
    · subst hcd
      rw [if_neg (lt_irrefl c), if_neg (lt_irrefl c)] at h1
      rw [strLt, if_neg (lt_irrefl c), if_neg (lt_irrefl c)]
      exact strLt_total as bs h1 (by intro hab; exact h2 (by rw [hab]))
    · rw [strLt, if_pos hcd]

theorem mem_insertSorted {β : Type} :
    ∀ (m : List (List Char × β)) (k : List Char) (v : β) (p : List Char × β),
      p ∈ insertSorted k v m → p = (k, v) ∨ p ∈ m
  | [], k, v, p, hmem => by
    rw [insertSorted] at hmem
    exact Or.inl (List.mem_singleton.mp hmem)
  | (k0, v0) :: rest, k, v, p, hmem => by
    rw [insertSorted] at hmem
    by_cases hlt : strLt k k0 = true
    · rw [if_pos hlt] at hmem
      rcases List.mem_cons.mp hmem with h1 | h1
      · exact Or.inl h1
      · exact Or.inr h1
    · rw [if_neg hlt] at hmem
      by_cases heq : k = k0
      · rw [if_pos heq] at hmem
        rcases List.mem_cons.mp hmem with h1 | h1
        · exact Or.inl h1
        · exact Or.inr (List.mem_cons_of_mem _ h1)
      · rw [if_neg heq] at hmem
        rcases List.mem_cons.mp hmem with h1 | h1
        · exact Or.inr (by rw [h1]; exact List.mem_cons_self ..)
        · rcases mem_insertSorted rest k v p h1 with h2 | h2
          · exact Or.inl h2
          · exact Or.inr (List.mem_cons_of_mem _ h2)

theorem chainLt_insertSorted {β : Type} :
    ∀ (m : List (List Char × β)) (k : List Char) (v : β),
      chainLt (m.map (fun p => p.1)) = true →
      (chainLt ((insertSorted k v m).map (fun p => p.1)) = true
       ∧ ∀ b, headLt b (m.map (fun p => p.1)) = true → strLt b k = true →
           headLt b ((insertSorted k v m).map (fun p => p.1)) = true)
  | [], k, v, h => by
    refine ⟨by simp [insertSorted, chainLt, headLt], fun b _ hbk => ?_⟩
    simpa [insertSorted, headLt] using hbk
  | (k0, v0) :: rest, k, v, h => by
    rw [List.map_cons, chainLt, Bool.and_eq_true] at h
    obtain ⟨hhead, hchain⟩ := h
    rw [insertSorted]
    by_cases hlt : strLt k k0 = true
    · rw [if_pos hlt]
      refine ⟨?_, fun b _ hbk => by simpa [headLt] using hbk⟩
      simp only [List.map_cons, chainLt, Bool.and_eq_true, headLt]
      exact ⟨hlt, hhead, hchain⟩
    · rw [if_neg hlt]
      by_cases heq : k = k0
      · rw [if_pos heq]
        subst heq
        refine ⟨?_, fun b hb hbk => by simpa [headLt] using hbk⟩
        simp only [List.map_cons, chainLt, Bool.and_eq_true]
        exact ⟨hhead, hchain⟩
      · rw [if_neg heq]
        have hk0k : strLt k0 k = true :=
          strLt_total k k0 (Bool.not_eq_true _ ▸ hlt) heq
        obtain ⟨ih1, ih2⟩ := chainLt_insertSorted rest k v hchain
        refine ⟨?_, fun b hb _ => by simpa [List.map_cons, headLt] using hb⟩
        simp only [List.map_cons, chainLt, Bool.and_eq_true]
        exact ⟨ih2 k0 hhead hk0k, ih1⟩

/- ------------------------------------------------------------------ -/
/- Sortedness invariant of the parser                                 -/
/- ------------------------------------------------------------------ -/

theorem listToVL_sorted {F : Type} :
    ∀ acc : List (Value F), (∀ x ∈ acc, sortedVal x = true) →
      sortedVL (listToVL acc) = true
  | [], _ => rfl
  | v :: r, h => by
    rw [listToVL, sortedVL, Bool.and_eq_true]
    exact ⟨h v (List.mem_cons_self ..),
           listToVL_sorted r (fun x hx => h x (List.mem_cons_of_mem v hx))⟩

theorem plOfList_sorted {F : Type} :
    ∀ m : List (List Char × Value F), (∀ p ∈ m, sortedVal p.2 = true) →
      sortedPL (plOfList m) = true
  | [], _ => rfl
  | (k, v) :: r, h => by
    rw [plOfList, sortedPL, Bool.and_eq_true]
    exact ⟨h (k, v) (List.mem_cons_self ..),
           plOfList_sorted r (fun p hp => h p (List.mem_cons_of_mem _ hp))⟩

theorem plKeys_plOfList {F : Type} :
    ∀ m : List (List Char × Value F), plKeys (plOfList m) = m.map (fun p => p.1)
  | [] => rfl
  | (k, v) :: r => by rw [plOfList, plKeys, List.map_cons, plKeys_plOfList r]

/-- Every value produced by the parser has all its Objects in strictly
ascending (sorted) key order: `parse_dict` builds them with the
`std::map` sorted-insert, which `insertSorted` models. -/
theorem parse_sorted_invariant {F : Type} (stof : List Char → Option F) :
    ∀ f : Nat,
      (∀ toks v r ds, parse stof f toks = some (v, r, ds) → sortedVal v = true)
      ∧ (∀ first acc toks v r ds, (∀ x ∈ acc, sortedVal x = true) →
           parse_array stof f first acc toks = some (v, r, ds) → sortedVal v = true)
      ∧ (∀ first m toks v r ds, (∀ p ∈ m, sortedVal p.2 = true) →
           chainLt (m.map (fun p => p.1)) = true →
           parse_dict stof f first m toks = some (v, r, ds) → sortedVal v = true) := by
  intro f
  induction f with
  | zero =>
    refine ⟨fun toks v r ds h => ?_, fun first acc toks v r ds _ h => ?_,
            fun first m toks v r ds _ _ h => ?_⟩ <;>
      simp [parse, parse_array, parse_dict] at h
  | succ f ih =>
    obtain ⟨ihP, ihA, ihD⟩ := ih
    have hsnoc : ∀ (acc : List (Value F)) (x : Value F),
        (∀ y ∈ acc, sortedVal y = true) → sortedVal x = true →
        ∀ y ∈ acc ++ [x], sortedVal y = true := by
      intro acc x hacc hx y hy
      rcases List.mem_append.mp hy with hy2 | hy2
      · exact hacc y hy2
      · rw [List.mem_singleton.mp hy2]
        exact hx
    have hP : ∀ toks v r ds, parse stof (f + 1) toks = some (v, r, ds) →
        sortedVal v = true := by
      intro toks v r ds h
      rcases toks with - | ⟨⟨tk, lit⟩, tl⟩
      · simp only [parse] at h
        obtain ⟨rfl, rfl, rfl⟩ := by simpa using h
        rfl
      · cases tk with
        | NULL_ =>
          simp only [parse] at h
          obtain ⟨rfl, rfl, rfl⟩ := by simpa using h
          rfl
        | BOOL =>
          simp only [parse] at h
          obtain ⟨rfl, rfl, rfl⟩ := by simpa using h
          split <;> rfl
        | STRING =>
          rcases lit with - | ⟨c, cs⟩
          · simp only [parse] at h
            exact absurd h (by simp)
          · simp only [parse] at h
            obtain ⟨rfl, rfl, rfl⟩ := by simpa using h
            rfl
        | INTEGER =>
          simp only [parse] at h
          split at h
          · exact absurd h (by simp)
          · obtain ⟨rfl, rfl, rfl⟩ := by simpa using h
            rfl
        | NUMBER =>
          simp only [parse] at h
          split at h
          · exact absurd h (by simp)
          · obtain ⟨rfl, rfl, rfl⟩ := by simpa using h
            rfl
        | LEFT_SQUARE_BRACKET =>
          simp only [parse] at h
          exact ihA true [] tl v r ds (by simp) h
        | LEFT_CURLY_BRACKET =>
          simp only [parse] at h
          exact ihD true [] tl v r ds (by simp) rfl h
        | RIGHT_SQUARE_BRACKET =>
          simp only [parse] at h
          obtain ⟨rfl, rfl, rfl⟩ := by simpa using h
          rfl
        | RIGHT_CURLY_BRACKET =>
          simp only [parse] at h
          obtain ⟨rfl, rfl, rfl⟩ := by simpa using h
          rfl
        | COMMA =>
          simp only [parse] at h
          obtain ⟨rfl, rfl, rfl⟩ := by simpa using h
          rfl
        | COLON =>
          simp only [parse] at h
          obtain ⟨rfl, rfl, rfl⟩ := by simpa using h
          rfl
    have hStep : ∀ (acc : List (Value F)) (toks2 : List Tok) (d0 : List Diag) v r ds,
        (∀ x ∈ acc, sortedVal x = true) →
        (match parse stof f toks2 with
         | none => none
         | some (v1, r1, ds1) =>
           match parse_array stof f false (acc ++ [v1]) r1 with
           | none => none
           | some (w, r2, ds2) => some (w, r2, d0 ++ (ds1 ++ ds2))) = some (v, r, ds) →
        sortedVal v = true := by
      intro acc toks2 d0 v r ds hacc h
      split at h
      · exact absurd h (by simp)
      · next v1 r1 ds1 hp =>
        split at h
        · exact absurd h (by simp)
        · next w r2 ds2 hq =>
          obtain ⟨rfl, rfl, rfl⟩ := by simpa using h
          exact ihA false (acc ++ [v1]) r1 w r2 ds2
            (hsnoc acc v1 hacc (ihP toks2 v1 r1 ds1 hp)) hq
    have hA : ∀ first acc toks v r ds, (∀ x ∈ acc, sortedVal x = true) →
        parse_array stof (f + 1) first acc toks = some (v, r, ds) →
        sortedVal v = true := by
      intro first acc toks v r ds hacc h
      rcases toks with - | ⟨⟨tk, lit⟩, tl⟩
      · simp only [parse_array] at h
        by_cases hfst : first = true
        · rw [if_pos hfst] at h
          exact hStep acc [] _ v r ds hacc h
        · rw [if_neg hfst] at h
          obtain ⟨rfl, rfl, rfl⟩ := by simpa using h
          rfl
      · cases tk with
        | RIGHT_SQUARE_BRACKET =>
          simp only [parse_array] at h
          obtain ⟨rfl, rfl, rfl⟩ := by simpa using h
          exact listToVL_sorted acc hacc
        | COMMA =>
          simp only [parse_array] at h
          by_cases hfst : first = true
          · rw [if_pos hfst] at h
            exact hStep acc ((JSONToken.COMMA, lit) :: tl) _ v r ds hacc h
          · rw [if_neg hfst] at h
            exact hStep acc tl [] v r ds hacc h
        | NULL_ =>
          simp only [parse_array] at h
          by_cases hfst : first = true
          · rw [if_pos hfst] at h
            exact hStep acc ((JSONToken.NULL_, lit) :: tl) _ v r ds hacc h
          · rw [if_neg hfst] at h
            obtain ⟨rfl, rfl, rfl⟩ := by simpa using h
            rfl
        | BOOL =>
          simp only [parse_array] at h
          by_cases hfst : first = true
          · rw [if_pos hfst] at h
            exact hStep acc ((JSONToken.BOOL, lit) :: tl) _ v r ds hacc h
          · rw [if_neg hfst] at h
            obtain ⟨rfl, rfl, rfl⟩ := by simpa using h
            rfl
        | INTEGER =>
          simp only [parse_array] at h
          by_cases hfst : first = true
          · rw [if_pos hfst] at h
            exact hStep acc ((JSONToken.INTEGER, lit) :: tl) _ v r ds hacc h
          · rw [if_neg hfst] at h
            obtain ⟨rfl, rfl, rfl⟩ := by simpa using h
            rfl
        | NUMBER =>
          simp only [parse_array] at h
          by_cases hfst : first = true
          · rw [if_pos hfst] at h
            exact hStep acc ((JSONToken.NUMBER, lit) :: tl) _ v r ds hacc h
          · rw [if_neg hfst] at h
            obtain ⟨rfl, rfl, rfl⟩ := by simpa using h
            rfl
        | STRING =>
          simp only [parse_array] at h
          by_cases hfst : first = true
          · rw [if_pos hfst] at h
            exact hStep acc ((JSONToken.STRING, lit) :: tl) _ v r ds hacc h
          · rw [if_neg hfst] at h
            obtain ⟨rfl, rfl, rfl⟩ := by simpa using h
            rfl
        | LEFT_SQUARE_BRACKET =>
          simp only [parse_array] at h
          by_cases hfst : first = true
          · rw [if_pos hfst] at h
            exact hStep acc ((JSONToken.LEFT_SQUARE_BRACKET, lit) :: tl) _ v r ds hacc h
          · rw [if_neg hfst] at h
            obtain ⟨rfl, rfl, rfl⟩ := by simpa using h
            rfl
        | LEFT_CURLY_BRACKET =>
          simp only [parse_array] at h
          by_cases hfst : first = true
          · rw [if_pos hfst] at h
            exact hStep acc ((JSONToken.LEFT_CURLY_BRACKET, lit) :: tl) _ v r ds hacc h
          · rw [if_neg hfst] at h
            obtain ⟨rfl, rfl, rfl⟩ := by simpa using h
            rfl
        | RIGHT_CURLY_BRACKET =>
          simp only [parse_array] at h
          by_cases hfst : first = true
          · rw [if_pos hfst] at h
            exact hStep acc ((JSONToken.RIGHT_CURLY_BRACKET, lit) :: tl) _ v r ds hacc h
          · rw [if_neg hfst] at h
            obtain ⟨rfl, rfl, rfl⟩ := by simpa using h
            rfl
        | COLON =>
          simp only [parse_array] at h
          by_cases hfst : first = true
          · rw [if_pos hfst] at h
            exact hStep acc ((JSONToken.COLON, lit) :: tl) _ v r ds hacc h
          · rw [if_neg hfst] at h
            obtain ⟨rfl, rfl, rfl⟩ := by simpa using h
            rfl
    have hDStep : ∀ (m : List (List Char × Value F)) (toks2 : List Tok) (d0 : List Diag) v r ds,
        (∀ p ∈ m, sortedVal p.2 = true) →
        chainLt (m.map (fun p => p.1)) = true →
        (match parse stof f toks2 with
         | none => none
         | some (kv, r1, ds1) =>
           match kv with
           | .str k =>
             match r1 with
             | (.COLON, _) :: r2 =>
               match parse stof f r2 with
               | none => none
               | some (v2, r3, ds2) =>
                 match parse_dict stof f false (insertSorted k v2 m) r3 with
                 | none => none
                 | some (w, r4, ds3) => some (w, r4, d0 ++ (ds1 ++ (ds2 ++ ds3)))
             | [] => some (.null, [], d0 ++ (ds1 ++ [.parseEndOfTokens, .parseExpectedColon]))
             | _ :: r2 => some (.null, r2, d0 ++ (ds1 ++ [.parseExpectedColon]))
           | _ => some (.null, r1, d0 ++ (ds1 ++ [.parseExpectedStringKey]))) = some (v, r, ds) →
        sortedVal v = true := by
      intro m toks2 d0 v r ds hm hchain h
      split at h
      · exact absurd h (by simp)
      · next kv r1 ds1 hp =>
        split at h
        · next k =>
          split at h
          · next lit2 r2 =>
            split at h
            · exact absurd h (by simp)
            · next v2 r3 ds2 hq =>
              split at h
              · exact absurd h (by simp)
              · next w r4 ds3 hr =>
                obtain ⟨rfl, rfl, rfl⟩ := by simpa using h
                refine ihD false (insertSorted k v2 m) r3 w r4 ds3 ?_ ?_ hr
                · intro p hp2
                  rcases mem_insertSorted m k v2 p hp2 with h2 | h2
                  · rw [h2]
                    exact ihP r2 v2 r3 ds2 hq
                  · exact hm p h2
                · exact (chainLt_insertSorted m k v2 hchain).1
          · obtain ⟨rfl, rfl, rfl⟩ := by simpa using h
            rfl
          · obtain ⟨rfl, rfl, rfl⟩ := by simpa using h
            rfl
        · obtain ⟨rfl, rfl, rfl⟩ := by simpa using h
          rfl
    have hD : ∀ first m toks v r ds, (∀ p ∈ m, sortedVal p.2 = true) →
        chainLt (m.map (fun p => p.1)) = true →
        parse_dict stof (f + 1) first m toks = some (v, r, ds) →
        sortedVal v = true := by
      intro first m toks v r ds hm hchain h
      rcases toks with - | ⟨⟨tk, lit⟩, tl⟩
      · simp only [parse_dict] at h
        by_cases hfst : first = true
        · rw [if_pos hfst] at h
          exact hDStep m [] _ v r ds hm hchain h
        · rw [if_neg hfst] at h
          obtain ⟨rfl, rfl, rfl⟩ := by simpa using h
          rfl
      · cases tk with
        | RIGHT_CURLY_BRACKET =>
          simp only [parse_dict] at h
          obtain ⟨rfl, rfl, rfl⟩ := by simpa using h
          rw [sortedVal, Bool.and_eq_true, plKeys_plOfList]
          exact ⟨hchain, plOfList_sorted m hm⟩
        | COMMA =>
          simp only [parse_dict] at h
          by_cases hfst : first = true
          · rw [if_pos hfst] at h
            exact hDStep m ((JSONToken.COMMA, lit) :: tl) _ v r ds hm hchain h
          · rw [if_neg hfst] at h
            exact hDStep m tl [] v r ds hm hchain h
        | NULL_ =>
          simp only [parse_dict] at h
          by_cases hfst : first = true
          · rw [if_pos hfst] at h
            exact hDStep m ((JSONToken.NULL_, lit) :: tl) _ v r ds hm hchain h
          · rw [if_neg hfst] at h
            obtain ⟨rfl, rfl, rfl⟩ := by simpa using h
            rfl
        | BOOL =>
          simp only [parse_dict] at h
          by_cases hfst : first = true
          · rw [if_pos hfst] at h
            exact hDStep m ((JSONToken.BOOL, lit) :: tl) _ v r ds hm hchain h
          · rw [if_neg hfst] at h
            obtain ⟨rfl, rfl, rfl⟩ := by simpa using h
            rfl
        | INTEGER =>
          simp only [parse_dict] at h
          by_cases hfst : first = true
          · rw [if_pos hfst] at h
            exact hDStep m ((JSONToken.INTEGER, lit) :: tl) _ v r ds hm hchain h
          · rw [if_neg hfst] at h
            obtain ⟨rfl, rfl, rfl⟩ := by simpa using h
            rfl
        | NUMBER =>
          simp only [parse_dict] at h
          by_cases hfst : first = true
          · rw [if_pos hfst] at h
            exact hDStep m ((JSONToken.NUMBER, lit) :: tl) _ v r ds hm hchain h
          · rw [if_neg hfst] at h
            obtain ⟨rfl, rfl, rfl⟩ := by simpa using h
            rfl
        | STRING =>
          simp only [parse_dict] at h
          by_cases hfst : first = true
          · rw [if_pos hfst] at h
            exact hDStep m ((JSONToken.STRING, lit) :: tl) _ v r ds hm hchain h
          · rw [if_neg hfst] at h
            obtain ⟨rfl, rfl, rfl⟩ := by simpa using h
            rfl
        | LEFT_SQUARE_BRACKET =>
          simp only [parse_dict] at h
          by_cases hfst : first = true
          · rw [if_pos hfst] at h
            exact hDStep m ((JSONToken.LEFT_SQUARE_BRACKET, lit) :: tl) _ v r ds hm hchain h
          · rw [if_neg hfst] at h
            obtain ⟨rfl, rfl, rfl⟩ := by simpa using h
            rfl
        | LEFT_CURLY_BRACKET =>
          simp only [parse_dict] at h
          by_cases hfst : first = true
          · rw [if_pos hfst] at h
            exact hDStep m ((JSONToken.LEFT_CURLY_BRACKET, lit) :: tl) _ v r ds hm hchain h
          · rw [if_neg hfst] at h
            obtain ⟨rfl, rfl, rfl⟩ := by simpa using h
            rfl
        | RIGHT_SQUARE_BRACKET =>
          simp only [parse_dict] at h
          by_cases hfst : first = true
          · rw [if_pos hfst] at h
            exact hDStep m ((JSONToken.RIGHT_SQUARE_BRACKET, lit) :: tl) _ v r ds hm hchain h
          · rw [if_neg hfst] at h
            obtain ⟨rfl, rfl, rfl⟩ := by simpa using h
            rfl
        | COLON =>
          simp only [parse_dict] at h
          by_cases hfst : first = true
          · rw [if_pos hfst] at h
            exact hDStep m ((JSONToken.COLON, lit) :: tl) _ v r ds hm hchain h
          · rw [if_neg hfst] at h
            obtain ⟨rfl, rfl, rfl⟩ := by simpa using h
            rfl
    exact ⟨hP, hA, hD⟩

/- ------------------------------------------------------------------ -/
/- Parsing literals written in order (claims C7 and C8)               -/
/- ------------------------------------------------------------------ -/

/-- Parsing one string token strips the enclosing quotes. -/
theorem parse_str_tok {F : Type} (stof : List Char → Option F)
    (f : Nat) (s : List Char) (r : List Tok) :
    parse stof (f + 1) ((JSONToken.STRING, '"' :: (s ++ ['"'])) :: r)
      = some (.str s, r, []) := by
  simp only [parse]
  rw [List.dropLast_concat]

/-- One-step unfolding: entering an array literal. -/
theorem parse_lsb_step {F : Type} (stof : List Char → Option F)
    (f : Nat) (lit : List Char) (toks : List Tok) :
    parse stof (f + 1) ((JSONToken.LEFT_SQUARE_BRACKET, lit) :: toks)
      = parse_array stof f true [] toks := by
  simp [parse]

/-- One-step unfolding: entering an object literal. -/
theorem parse_lcb_step {F : Type} (stof : List Char → Option F)
    (f : Nat) (lit : List Char) (toks : List Tok) :
    parse stof (f + 1) ((JSONToken.LEFT_CURLY_BRACKET, lit) :: toks)
      = parse_dict stof f true [] toks := by
  simp [parse]

/-- One iteration of the `parse_array` loop after the first, at a comma. -/
theorem parse_array_comma_step {F : Type} (stof : List Char → Option F)
    (f : Nat) (acc : List (Value F)) (lit : List Char) (toks : List Tok) :
    parse_array stof (f + 1) false acc ((JSONToken.COMMA, lit) :: toks)
      = match parse stof f toks with
        | none => none
        | some (v, r1, ds) =>
          match parse_array stof f false (acc ++ [v]) r1 with
          | none => none
          | some (w, r2, ds2) => some (w, r2, ds ++ ds2) := by
  simp [parse_array]

/-- The first iteration of the `parse_array` loop, when the next token
does not close the array. -/
theorem parse_array_first_step {F : Type} (stof : List Char → Option F)
    (f : Nat) (acc : List (Value F)) (tk : JSONToken) (lit : List Char) (toks : List Tok)
    (hne : tk ≠ JSONToken.RIGHT_SQUARE_BRACKET) :
    parse_array stof (f + 1) true acc ((tk, lit) :: toks)
      = match parse stof f ((tk, lit) :: toks) with
        | none => none
        | some (v, r1, ds) =>
          match parse_array stof f false (acc ++ [v]) r1 with
          | none => none
          | some (w, r2, ds2) => some (w, r2, ds ++ ds2) := by
  cases tk <;> first
    | exact absurd rfl hne
    | simp [parse_array]

/-- One iteration of the `parse_dict` loop after the first, at a comma. -/
theorem parse_dict_comma_step {F : Type} (stof : List Char → Option F)
    (f : Nat) (m : List (List Char × Value F)) (lit : List Char) (toks : List Tok) :
    parse_dict stof (f + 1) false m ((JSONToken.COMMA, lit) :: toks)
      = match parse stof f toks with
        | none => none
        | some (kv, r1, ds1) =>
          match kv with
          | .str k =>
            match r1 with
            | (.COLON, _) :: r2 =>
              match parse stof f r2 with
              | none => none
              | some (v2, r3, ds2) =>
                match parse_dict stof f false (insertSorted k v2 m) r3 with
                | none => none
                | some (w, r4, ds3) => some (w, r4, ds1 ++ (ds2 ++ ds3))
            | [] => some (.null, [], ds1 ++ [.parseEndOfTokens, .parseExpectedColon])
            | _ :: r2 => some (.null, r2, ds1 ++ [.parseExpectedColon])
          | _ => some (.null, r1, ds1 ++ [.parseExpectedStringKey]) := by
  simp [parse_dict]

/-- The first iteration of the `parse_dict` loop, when the next token
does not close the object. -/
theorem parse_dict_first_step {F : Type} (stof : List Char → Option F)
    (f : Nat) (m : List (List Char × Value F)) (tk : JSONToken) (lit : List Char)
    (toks : List Tok) (hne : tk ≠ JSONToken.RIGHT_CURLY_BRACKET) :
    parse_dict stof (f + 1) true m ((tk, lit) :: toks)
      = match parse stof f ((tk, lit) :: toks) with
        | none => none
        | some (kv, r1, ds1) =>
          match kv with
          | .str k =>
            match r1 with
            | (.COLON, _) :: r2 =>
              match parse stof f r2 with
              | none => none
              | some (v2, r3, ds2) =>
                match parse_dict stof f false (insertSorted k v2 m) r3 with
                | none => none
                | some (w, r4, ds3) => some (w, r4, ds1 ++ (ds2 ++ ds3))
            | [] => some (.null, [], ds1 ++ [.parseEndOfTokens, .parseExpectedColon])
            | _ :: r2 => some (.null, r2, ds1 ++ [.parseExpectedColon])
          | _ => some (.null, r1, ds1 ++ [.parseExpectedStringKey]) := by
  cases tk <;> first
    | exact absurd rfl hne
    | simp [parse_dict]

/-- The `parse_array` loop consumes `, "s"` groups in order and appends
the elements in exactly that order. -/
theorem parse_array_strTail {F : Type} (stof : List Char → Option F) :
    ∀ (ss : List (List Char)) (f : Nat) (acc : List (Value F)) (rest : List Tok),
      ss.length + 1 ≤ f →
      parse_array stof f false acc (strTailToks ss ++ rest)
        = some (.arr (listToVL (acc ++ ss.map Value.str)), rest, [])
  | [], f, acc, rest, hf => by
    obtain ⟨g, rfl⟩ : ∃ g, f = g + 1 := ⟨f - 1, by omega⟩
    simp [strTailToks, parse_array]
  | s :: ss, f, acc, rest, hf => by
    simp only [List.length_cons] at hf
    obtain ⟨g, rfl⟩ : ∃ g, f = g + 1 := ⟨f - 1, by omega⟩
    obtain ⟨g1, rfl⟩ : ∃ g1, g = g1 + 1 := ⟨g - 1, by omega⟩
    rw [strTailToks]
    simp only [List.cons_append]
    rw [parse_array_comma_step stof (g1 + 1) acc [','] _]
    simp only [parse_str_tok stof g1]
    rw [parse_array_strTail stof ss (g1 + 1) (acc ++ [Value.str s]) rest (by omega)]
    simp

/-- Parsing an array literal of string elements yields exactly those
elements, in written order, and leaves the trailing tokens untouched. -/
theorem parse_strArr {F : Type} (stof : List Char → Option F)
    (ss : List (List Char)) (f : Nat) (rest : List Tok)
    (hf : ss.length + 3 ≤ f) :
    parse stof f (strArrToks ss ++ rest)
      = some (.arr (listToVL (ss.map Value.str)), rest, []) := by
  obtain ⟨g, rfl⟩ : ∃ g, f = g + 1 := ⟨f - 1, by omega⟩
  cases ss with
  | nil =>
    obtain ⟨g1, rfl⟩ : ∃ g1, g = g1 + 1 := ⟨g - 1, by omega⟩
    simp [strArrToks, strTailToks, parse, parse_array, listToVL]
  | cons s ss =>
    simp only [List.length_cons] at hf
    obtain ⟨g2, rfl⟩ : ∃ g2, g = g2 + 1 := ⟨g - 1, by omega⟩
    obtain ⟨g3, rfl⟩ : ∃ g3, g2 = g3 + 1 := ⟨g2 - 1, by omega⟩
    rw [strArrToks]
    simp only [List.cons_append]
    rw [parse_lsb_step stof (g3 + 1 + 1) ['['] _]
    rw [parse_array_first_step stof (g3 + 1) [] JSONToken.STRING _ _ (by decide)]
    simp only [parse_str_tok stof g3, List.nil_append]
    rw [parse_array_strTail stof ss (g3 + 1) [Value.str s] rest (by omega)]
    simp

theorem strTailToks_length : ∀ ss : List (List Char), (strTailToks ss).length = 2 * ss.length + 1
  | [] => rfl
  | s :: ss => by
    rw [strTailToks]
    simp only [List.length_cons, strTailToks_length ss]
    ring

theorem strArrToks_length_ge (ss : List (List Char)) :
    ss.length + 1 ≤ (strArrToks ss).length := by
  cases ss with
  | nil => simp [strArrToks, strTailToks]
  | cons s ss =>
    rw [strArrToks]
    simp only [List.length_cons, strTailToks_length]
    omega

/-- The `parse_dict` loop consumes `, "k": "v"` groups in order and
stores them with `m[key] = value` (`insertSorted`). -/
theorem parse_dict_strTail {F : Type} (stof : List Char → Option F) :
    ∀ (ps : List (List Char × List Char)) (f : Nat)
      (m : List (List Char × Value F)) (rest : List Tok),
      ps.length + 1 ≤ f →
      parse_dict stof f false m (strDictTailToks ps ++ rest)
        = some (.dict (plOfList
            (ps.foldl (fun acc p => insertSorted p.1 (Value.str p.2) acc) m)), rest, [])
  | [], f, m, rest, hf => by
    obtain ⟨g, rfl⟩ : ∃ g, f = g + 1 := ⟨f - 1, by omega⟩
    simp [strDictTailToks, parse_dict]
  | (k, v) :: ps, f, m, rest, hf => by
    simp only [List.length_cons] at hf
    obtain ⟨g, rfl⟩ : ∃ g, f = g + 1 := ⟨f - 1, by omega⟩
    obtain ⟨g1, rfl⟩ : ∃ g1, g = g1 + 1 := ⟨g - 1, by omega⟩
    rw [strDictTailToks]
    simp only [List.cons_append]
    rw [parse_dict_comma_step stof (g1 + 1) m [','] _]
    simp only [parse_str_tok stof g1]
    rw [parse_dict_strTail stof ps (g1 + 1) (insertSorted k (Value.str v) m) rest (by omega)]
    simp

/-- Parsing an object literal with string values folds its pairs, in
written order, through the sorted insert-or-assign. -/
theorem parse_strDict {F : Type} (stof : List Char → Option F)
    (ps : List (List Char × List Char)) (f : Nat) (rest : List Tok)
    (hf : ps.length + 3 ≤ f) :
    parse stof f (strDictToks ps ++ rest)
      = some (.dict (plOfList
          (ps.foldl (fun m p => insertSorted p.1 (Value.str p.2) m) [])), rest, []) := by
  obtain ⟨g, rfl⟩ : ∃ g, f = g + 1 := ⟨f - 1, by omega⟩
  cases ps with
  | nil =>
    obtain ⟨g1, rfl⟩ : ∃ g1, g = g1 + 1 := ⟨g - 1, by omega⟩
    simp [strDictToks, strDictTailToks, parse, parse_dict, plOfList]
  | cons p ps =>
    obtain ⟨k, v⟩ := p
    simp only [List.length_cons] at hf
    obtain ⟨g2, rfl⟩ : ∃ g2, g = g2 + 1 := ⟨g - 1, by omega⟩
    obtain ⟨g3, rfl⟩ : ∃ g3, g2 = g3 + 1 := ⟨g2 - 1, by omega⟩
    rw [strDictToks]
    simp only [List.cons_append]
    rw [parse_lcb_step stof (g3 + 1 + 1) ['{'] _]
    rw [parse_dict_first_step stof (g3 + 1) [] JSONToken.STRING _ _ (by decide)]
    simp only [parse_str_tok stof g3]
    rw [parse_dict_strTail stof ps (g3 + 1) (insertSorted k (Value.str v) []) rest (by omega)]
    simp

theorem strDictTailToks_length :
    ∀ ps : List (List Char × List Char), (strDictTailToks ps).length = 4 * ps.length + 1
  | [] => rfl
  | (k, v) :: ps => by
    rw [strDictTailToks]
    simp only [List.length_cons, strDictTailToks_length ps]
    ring

theorem strDictToks_length_ge (ps : List (List Char × List Char)) :
    ps.length + 1 ≤ (strDictToks ps).length := by
  cases ps with
  | nil => simp [strDictToks, strDictTailToks]
  | cons p ps =>
    obtain ⟨k, v⟩ := p
    rw [strDictToks]
    simp only [List.length_cons, strDictTailToks_length]
    omega

/- ------------------------------------------------------------------ -/
/- Claims C7 and C8                                                   -/
/- ------------------------------------------------------------------ -/

theorem assocFind_foldl_insert {β γ : Type} (g : γ → β) :
    ∀ (ps : List (List Char × γ)) (m0 : List (List Char × β)) (k : List Char),
      assocFind (ps.foldl (fun m p => insertSorted p.1 (g p.2) m) m0) k
        = match lastVal ps k with
          | some w => some (g w)
          | none => assocFind m0 k
  | [], m0, k => rfl
  | (k1, v1) :: ps, m0, k => by
    rw [List.foldl_cons, lastVal, assocFind_foldl_insert g ps (insertSorted k1 (g v1) m0) k]
    rcases hlv : lastVal ps k with - | w
    · by_cases hk : k = k1 <;> simp [hlv, assocFind_insertSorted, hk]
    · simp [hlv]

/-- C7: (1) array element order is preserved exactly as written — parsing
an array literal of string elements yields those elements in written
order; (2) every value the parser produces has all its Objects stored in
strictly ascending key order (`std::map`), and serialization iterates
entries in exactly that stored order, so key iteration is deterministic
and sorted; (3) concretely, the object literal written with keys in the
order `b`, `a` parses to an Object whose stored (and hence serialized)
entry order is `a`, `b` — reordered relative to the input. -/
theorem c7_ordering :
    (∀ (F : Type) (stof : List Char → Option F) (ss : List (List Char)) (rest : List Tok),
        parseTop stof (strArrToks ss ++ rest)
          = some (.arr (listToVL (ss.map Value.str)), rest, []))
    ∧ (∀ (F : Type) (stof : List Char → Option F) (f : Nat) (toks : List Tok)
         (v : Value F) (r : List Tok) (ds : List Diag),
        parse stof f toks = some (v, r, ds) → sortedVal v = true)
    ∧ parseTop stofU dtoks7
        = some (.dict (plOfList [(("a".toList), Value.str ("y".toList)),
                                 (("b".toList), Value.str ("x".toList))]), [], []) := by
  refine ⟨fun F stof ss rest => ?_, fun F stof f toks v r ds h =>
    (parse_sorted_invariant stof f).1 toks v r ds h, rfl⟩
  rw [parseTop]
  apply parse_strArr
  have h1 := strArrToks_length_ge ss
  rw [List.length_append]
  omega

/-- C7 witness: the sortedness invariant applied to a concrete parse. -/
theorem c7_ordering_witness : sortedVal (Value.null : Value Unit) = true :=
  c7_ordering.2.1 Unit stofU 4 [(JSONToken.NULL_, [])] Value.null [] [] rfl

/-- C8: parsing an object literal (written as a list of key/value pairs
in input order, string values) stores each pair with the overwriting
`std::map` insert, so the resulting Object maps every key to the value of
its LAST occurrence in the input, and keys absent from the input are
absent from the result — values of earlier duplicate occurrences do not
appear. -/
theorem c8_duplicate_keys :
    ∀ (F : Type) (stof : List Char → Option F) (ps : List (List Char × List Char))
      (rest : List Tok),
      (parseTop stof (strDictToks ps ++ rest)
        = some (.dict (plOfList
            (ps.foldl (fun m p => insertSorted p.1 (Value.str p.2) m) [])), rest, []))
      ∧ ∀ k, assocFind (ps.foldl (fun m p => insertSorted p.1 (Value.str p.2) m)
            ([] : List (List Char × Value F))) k
          = (lastVal ps k).map Value.str := by
  intro F stof ps rest
  constructor
  · rw [parseTop]
    apply parse_strDict
    have h1 := strDictToks_length_ge ps
    rw [List.length_append]
    omega
  · intro k
    rw [assocFind_foldl_insert Value.str ps [] k]
    rcases hlv : lastVal ps k with - | w <;> simp [assocFind]

end Sjson
